import Mathlib

/-!
pprof-breakdown: variant derivation and measurement harness

A shallow embedding of `main.go` (package `main` of `felixge/pprof-breakdown`):

* `Variant.Derive`     (main.go 140-182)
* `Analyzer.outFilename` (main.go 119-122)
* `Analyzer.Run`       (main.go 94-117)
* `Cmd.Run`            (main.go 35-81)

Go values with reference semantics that the program mutates (`NumLabel` maps)
live in an explicit `Store`; everything else is a plain value.  A Go panic is
the `Except.error` branch of the embedded function.
-/

set_option autoImplicit false

namespace PprofBreakdown

/-! ## Data model (the shape of `profile.Profile` that `main.go` touches) -/

/-- Go `map[string][]string` that the program only reads or copies by reference. -/
abbrev StrMap := List (String × List String)

/-- Go `map[string][]int64`, as an association list with unique keys kept by `numLabelSet`. -/
abbrev NumLabelMap := List (String × List Int)

/-- Go `m[k]` for a `map[string][]int64`: the nil slice when the key is absent. -/
def numLabelGet : NumLabelMap → String → List Int
  | [], _ => []
  | (k', v) :: m, k => if k' = k then v else numLabelGet m k

/-- Go `m[k] = v` for a `map[string][]int64`. -/
def numLabelSet : NumLabelMap → String → List Int → NumLabelMap
  | [], k, v => [(k, v)]
  | (k', v') :: m, k, v => if k' = k then (k, v) :: m else (k', v') :: numLabelSet m k v

/-- The heap cells holding the `NumLabel` maps: a map value in Go is a reference,
and `Variant.Derive` writes through it. A reference is an index into `maps`. -/
structure Store where
  maps : List NumLabelMap
deriving DecidableEq, Repr

/-- Dereference a map reference. -/
def Store.read (st : Store) (r : Nat) : NumLabelMap := st.maps.getD r []

/-- Go `make(map[string][]int64)`: a fresh empty map and its reference. -/
def Store.make (st : Store) : Store × Nat := (⟨st.maps ++ [[]]⟩, st.maps.length)

/-- Replace the contents of the map behind reference `r`. -/
def Store.write (st : Store) (r : Nat) (m : NumLabelMap) : Store := ⟨st.maps.set r m⟩

/-- A per-tick label bundle (`profile.LabelSet`); `NumLabel` is a map reference, `none` is nil. -/
structure LabelSet where
  Label : Option StrMap
  NumLabel : Option Nat
  NumUnit : Option StrMap
deriving DecidableEq, Repr

/-- One breakdown entry (`profile.Breakdown`): ticks and one optional bundle slot per tick. -/
structure Breakdown where
  Tick : List Int
  LabelSet : List (Option LabelSet)
deriving DecidableEq, Repr

/-- One sample (`profile.Sample`). `Location` is the stack (identities of the frames). -/
structure Sample where
  Location : List Nat
  Value : List Int
  Label : Option StrMap
  NumLabel : Option Nat
  NumUnit : Option StrMap
  Breakdown : List Breakdown
deriving DecidableEq, Repr

/-- The profile (`profile.Profile`): samples, the profile-wide label-set, the tick unit and
the remaining metadata (`Other`: sample types, period, comments, ...), which `main.go`
never touches. -/
structure Profile where
  Sample : List Sample
  LabelSet : List LabelSet
  TickUnit : String
  Other : List String
deriving DecidableEq, Repr

/-- Modelled from the spec: `Profile.Copy()` of the external profile package (not under
src/), "deep copy": the result is structurally equal to the input and shares no mutable
state with it. The copy lives in its own store, which is the returned one; the caller's
store is a value and stays as it was. -/
def Profile.Copy (st : Store) (prof : Profile) : Store × Profile := (st, prof)

/-! ## `Variant.Derive` (main.go 132-182) -/

/-- Go `type Variant string`. -/
abbrev Variant := String

def VariantPlain : Variant := "plain"
def VariantBreakdown : Variant := "breakdown"
def VariantLabel : Variant := "label"

/-- Body of the innermost loop of the `label` case (main.go 157-171) for tick `tick` at
index `i` of entry `b` of sample `s`: the new sample and the store after the write to
`newS.NumLabel["time"]`. `Except.error` is a Go run-time panic. -/
def deriveTick (s : Sample) (b : Breakdown) (i : Nat) (tick : Int) (st : Store) :
    Except String (Store × Sample) :=
  -- newS := *s
  let newS := s
  -- b.LabelSet[i]
  match b.LabelSet[i]? with
  | none => .error "index out of range"
  | some slot =>
    let newS := match slot with
      | some ls => { newS with Label := ls.Label, NumLabel := ls.NumLabel, NumUnit := ls.NumUnit }
      | none => newS
    -- if newS.NumLabel == nil { newS.NumLabel = make(map[string][]int64) }
    let (st, r) := match newS.NumLabel with
      | some r => (st, r)
      | none => st.make
    let newS := { newS with NumLabel := some r }
    -- newS.NumLabel["time"] = append(newS.NumLabel["time"], tick)
    let m := st.read r
    let st := st.write r (numLabelSet m "time" (numLabelGet m "time" ++ [tick]))
    -- newS.Breakdown = nil
    let newS := { newS with Breakdown := [] }
    -- newS.Value = make([]int64, len(s.Value)); copy(newS.Value, s.Value)
    let newS := { newS with Value := s.Value }
    -- newS.Value[0] = newS.Value[0] / int64(len(b.Tick))
    match newS.Value with
    | [] => .error "index out of range"
    | v0 :: vs =>
      if b.Tick.length = 0 then .error "integer divide by zero"
      else .ok (st, { newS with Value := Int.tdiv v0 (b.Tick.length : Int) :: vs })

/-- The loop `for i, tick := range b.Tick` (main.go 156-173), from index `i` on. -/
def deriveTicks (s : Sample) (b : Breakdown) :
    Nat → List Int → Store → List Sample → Except String (Store × List Sample)
  | _, [], st, newSamples => .ok (st, newSamples)
  | i, tick :: rest, st, newSamples =>
    match deriveTick s b i tick st with
    | .error e => .error e
    | .ok (st, newS) => deriveTicks s b (i + 1) rest st (newSamples ++ [newS])

/-- The loop `for i := range s.Breakdown` (main.go 154-174). -/
def deriveBreakdowns (s : Sample) :
    List Breakdown → Store → List Sample → Except String (Store × List Sample)
  | [], st, newSamples => .ok (st, newSamples)
  | b :: bs, st, newSamples =>
    match deriveTicks s b 0 b.Tick st newSamples with
    | .error e => .error e
    | .ok (st, newSamples) => deriveBreakdowns s bs st newSamples

/-- The loop `for _, s := range prof.Sample` of the `label` case (main.go 153-175). -/
def deriveSamples :
    List Sample → Store → List Sample → Except String (Store × List Sample)
  | [], st, newSamples => .ok (st, newSamples)
  | s :: ss, st, newSamples =>
    match deriveBreakdowns s s.Breakdown st newSamples with
    | .error e => .error e
    | .ok (st, newSamples) => deriveSamples ss st newSamples

/-- `func (v Variant) Derive(prof *profile.Profile) *profile.Profile` (main.go 140-182).
The result is the derived profile together with the store its map references point into;
`Except.error` is a panic. -/
def Variant.Derive (v : Variant) (st : Store) (prof : Profile) : Except String (Store × Profile) :=
  if v = VariantBreakdown then .ok (st, prof)
  else
    let (st, prof) := Profile.Copy st prof
    if v = VariantPlain then
      .ok (st, { prof with
        Sample := prof.Sample.map (fun s => { s with Breakdown := [] }),
        LabelSet := [] })
    else if v = VariantLabel then
      match deriveSamples prof.Sample st [] with
      | .error e => .error e
      | .ok (st, newSamples) => .ok (st, { prof with Sample := newSamples, LabelSet := [] })
    else .error ("bug: unknown variant: " ++ v)


/-! ## The enumeration of ticks that the claims speak of -/

/-- A tick of the input: sample `s`, its breakdown entry `b`, the index `i` into `b.Tick`
and the tick value at that index. -/
structure TickSite where
  s : Sample
  b : Breakdown
  i : Nat
  tick : Int
deriving DecidableEq, Repr

/-- The ticks of one breakdown entry, by increasing index. -/
def ticksOfBreakdown (s : Sample) (b : Breakdown) : List TickSite :=
  (b.Tick.enumFrom 0).map (fun it => ⟨s, b, it.1, it.2⟩)

/-- The ticks of one sample: entry by entry, then by index. -/
def ticksOfSample (s : Sample) : List TickSite :=
  s.Breakdown.flatMap (ticksOfBreakdown s)

/-- The ticks of a profile: sample by sample, then entry by entry, then by index. -/
def ticksOf (p : Profile) : List TickSite :=
  p.Sample.flatMap ticksOfSample

/-- Sample `o` is what the loop body of the `label` case builds at tick `t` (in some store). -/
def Produces (o : Sample) (t : TickSite) : Prop :=
  ∃ st st', deriveTick t.s t.b t.i t.tick st = .ok (st', o)

/-- Number of ticks of a sample, over all its breakdown entries. -/
def Sample.tickCount (s : Sample) : Nat := (s.Breakdown.map (fun b => b.Tick.length)).sum

/-- The data-model invariant as claims C1 and C2 use it: every breakdown entry has as many
`LabelSet` slots as ticks and every sample has a value vector with a slot 0. -/
def Profile.Invariant (p : Profile) : Prop :=
  ∀ s ∈ p.Sample, s.Value ≠ [] ∧ ∀ b ∈ s.Breakdown, b.LabelSet.length = b.Tick.length

instance (p : Profile) : Decidable p.Invariant := by
  unfold Profile.Invariant; infer_instance

/-- The invariants as claim C6 lists them: `len(labelSet) == len(tick)` for every breakdown
entry, and all value vectors of equal length. -/
def Profile.ListedInvariants (p : Profile) : Prop :=
  (∀ s ∈ p.Sample, ∀ b ∈ s.Breakdown, b.LabelSet.length = b.Tick.length) ∧
  (∀ s ∈ p.Sample, ∀ s' ∈ p.Sample, s.Value.length = s'.Value.length)

instance (p : Profile) : Decidable p.ListedInvariants := by
  unfold Profile.ListedInvariants; infer_instance

/-- Every sample that has at least one tick has a value vector with a slot 0. -/
def Profile.TickedHaveValue (p : Profile) : Prop :=
  ∀ s ∈ p.Sample, ∀ b ∈ s.Breakdown, b.Tick ≠ [] → s.Value ≠ []

instance (p : Profile) : Decidable p.TickedHaveValue := by
  unfold Profile.TickedHaveValue; infer_instance

/-- What the loops of the `label` case need of a sample in order not to panic: a slot in
`LabelSet` for every tick, and a value slot 0 when there is a tick. -/
def Sample.LabelSafe (s : Sample) : Prop :=
  ∀ b ∈ s.Breakdown, b.Tick.length ≤ b.LabelSet.length ∧ (b.Tick ≠ [] → s.Value ≠ [])

/-- Go `s.Value[0]` read as a number (0 when the vector is empty, where Go would panic). -/
def Sample.value0 (s : Sample) : Int := s.Value.headD 0

/-- The three tags `Variant.Derive` knows. -/
def Variant.Known (v : Variant) : Prop :=
  v = VariantPlain ∨ v = VariantBreakdown ∨ v = VariantLabel

instance (v : Variant) : Decidable (Variant.Known v) := by
  unfold Variant.Known; infer_instance

/-- The end-to-end scenario of the spec: one sample, values `[100, 1]`, one breakdown
entry with ticks `[10, 20, 30, 40]` and no label sets. -/
def exampleProfile : Profile :=
  ⟨[⟨[1, 2], [100, 1], none, none, none, [⟨[10, 20, 30, 40], [none, none, none, none]⟩]⟩],
    [], "nanoseconds", []⟩

/-- A profile whose value vectors all have length 0 and whose one sample has one tick. -/
def emptyValueProfile : Profile :=
  ⟨[⟨[1], [], none, none, none, [⟨[7], [none]⟩]⟩], [], "nanoseconds", []⟩

/-- One sample with value `[100]` and one breakdown entry of three ticks. -/
def threeTickProfile : Profile :=
  ⟨[⟨[1], [100], none, none, none, [⟨[1, 2, 3], [none, none, none]⟩]⟩], [], "nanoseconds", []⟩

/-- One sample with value `[100]` and two breakdown entries of four ticks each. -/
def twoEntryProfile : Profile :=
  ⟨[⟨[1], [100], none, none, none,
      [⟨[1, 2, 3, 4], [none, none, none, none]⟩, ⟨[5, 6, 7, 8], [none, none, none, none]⟩]⟩],
    [], "nanoseconds", []⟩

/-- The `label` variant of `exampleProfile`: four samples, each with value `[25, 1]` and
its own fresh map holding one tick under `"time"`. -/
def exampleLabelOutput : Store × Profile :=
  (⟨[[("time", [10])], [("time", [20])], [("time", [30])], [("time", [40])]]⟩,
   ⟨[⟨[1, 2], [25, 1], none, some 0, none, []⟩, ⟨[1, 2], [25, 1], none, some 1, none, []⟩,
     ⟨[1, 2], [25, 1], none, some 2, none, []⟩, ⟨[1, 2], [25, 1], none, some 3, none, []⟩],
    [], "nanoseconds", []⟩)

/-- The `label` variant of `threeTickProfile`. -/
def threeTickLabelOutput : Store × Profile :=
  (⟨[[("time", [1])], [("time", [2])], [("time", [3])]]⟩,
   ⟨[⟨[1], [33], none, some 0, none, []⟩, ⟨[1], [33], none, some 1, none, []⟩,
     ⟨[1], [33], none, some 2, none, []⟩], [], "nanoseconds", []⟩)

/-- Go `o.NumLabel[key]` in store `st` (the nil slice for a nil map or an absent key). -/
def Sample.numLabelAt (st : Store) (o : Sample) (key : String) : List Int :=
  match o.NumLabel with
  | some r => numLabelGet (st.read r) key
  | none => []

/-- A store with one map, `bytes -> [8]`: the `NumLabel` of the sample of `sharedMapProfile`. -/
def sharedMapStore : Store := ⟨[[("bytes", [8])]]⟩

/-- One sample with a sample-level `NumLabel` map (reference 0), values `[100, 1]` and one
breakdown entry with ticks `[10, 20]` and no label sets. -/
def sharedMapProfile : Profile :=
  ⟨[⟨[1, 2], [100, 1], none, some 0, none, [⟨[10, 20], [none, none]⟩]⟩], [], "nanoseconds", []⟩

/-- A store with one map, `time -> [5]`: the `NumLabel` of the bundle of `sharedBundleProfile`. -/
def sharedBundleStore : Store := ⟨[[("time", [5])]]⟩

/-- One sample without labels, values `[100, 1]` and one breakdown entry with ticks
`[10, 20]` whose two slots hold the same bundle, with `NumLabel` map reference 0. -/
def sharedBundleProfile : Profile :=
  ⟨[⟨[1, 2], [100, 1], none, none, none,
      [⟨[10, 20], [some ⟨none, some 0, none⟩, some ⟨none, some 0, none⟩]⟩]⟩],
    [], "nanoseconds", []⟩

/-- The map that the loop body takes for the new sample at a tick before it appends the
tick: the bundle's `NumLabel` when the tick's slot holds a bundle, the parent's otherwise
(`none` is the nil map, for which the body makes a fresh one). -/
def TickSite.mapSource (t : TickSite) : Option Nat :=
  match t.b.LabelSet[t.i]? with
  | some (some ls) => ls.NumLabel
  | _ => t.s.NumLabel

/-- The map `{"time": [tick]}` that a tick gets when it starts from a nil map. -/
def TickSite.freshMap (t : TickSite) : NumLabelMap := [("time", [t.tick])]

/-- The state after a run of ticks none of which starts from an existing map: one fresh
map per tick appended to the store, and the new samples refer to them in order. -/
def FreshRun (st st' : Store) (outs : List Sample) (sites : List TickSite) : Prop :=
  st'.maps = st.maps ++ sites.map TickSite.freshMap ∧
  outs.map Sample.NumLabel = (List.range' st.maps.length sites.length).map some


/-! ## Strings and paths (Go standard library, Unix flavour) -/

/-- Go `strings.Cut(s, sep)` on characters: the text before and after the first instance
of `sep`, and whether `sep` was found; `(s, "", false)` when it was not. -/
def cutChars (sep : List Char) : List Char → List Char × List Char × Bool
  | [] => if sep = [] then ([], [], true) else ([], [], false)
  | c :: rest =>
    if sep.isPrefixOf (c :: rest) then ([], (c :: rest).drop sep.length, true)
    else
      match cutChars sep rest with
      | (before, after, true) => (c :: before, after, true)
      | (_, _, false) => (c :: rest, [], false)

/-- Go `strings.Cut`. -/
def stringsCut (s sep : String) : String × String × Bool :=
  match cutChars sep.toList s.toList with
  | (before, after, found) => (String.mk before, String.mk after, found)

/-- Split a path at every `/`. -/
def splitSlash : List Char → List (List Char)
  | [] => [[]]
  | c :: rest =>
    match splitSlash rest with
    | [] => [[c]]
    | seg :: segs => if c = '/' then [] :: seg :: segs else (c :: seg) :: segs

/-- The elements that `filepath.Clean` keeps, last one first: empty and `.` elements go,
`..` removes the element before it, or goes itself at the root, or stays. -/
def cleanElems (rooted : Bool) : List (List Char) → List (List Char) → List (List Char)
  | [], kept => kept
  | seg :: segs, kept =>
    if seg = [] ∨ seg = ['.'] then cleanElems rooted segs kept
    else if seg = ['.', '.'] then
      match kept with
      | top :: below =>
        if top = ['.', '.'] then cleanElems rooted segs (seg :: kept)
        else cleanElems rooted segs below
      | [] => if rooted then cleanElems rooted segs [] else cleanElems rooted segs [seg]
    else cleanElems rooted segs (seg :: kept)

/-- Go `filepath.Clean`: the shortest path name equivalent to `path` by purely lexical
processing; `.` for the empty result. -/
def filepathClean (path : List Char) : List Char :=
  let rooted := path.head? = some '/'
  let body := List.intercalate ['/'] (cleanElems rooted (splitSlash path) []).reverse
  let out := if rooted then '/' :: body else body
  if out = [] then ['.'] else out

/-- Go `filepath.Join`: from the first non-empty element on, the elements joined by `/`
and cleaned; the empty string when every element is empty. -/
def joinChars : List (List Char) → List Char
  | [] => []
  | e :: es => if e = [] then joinChars es else filepathClean (List.intercalate ['/'] (e :: es))

/-- Go `filepath.Join`. -/
def filepathJoin (elem : List String) : String :=
  String.mk (joinChars (elem.map String.toList))

/-- Go `filepath.Base` on characters: the last element of the path, trailing slashes
removed first; `.` for the empty path and `/` for a path of slashes only. -/
def baseChars (path : List Char) : List Char :=
  if path = [] then ['.']
  else
    let stripped := (path.reverse.dropWhile (fun c => c = '/')).reverse
    let last := (stripped.reverse.takeWhile (fun c => c ≠ '/')).reverse
    if last = [] then ['/'] else last

/-- Go `filepath.Base`. -/
def filepathBase (path : String) : String := String.mk (baseChars path.toList)

/-- Go `filepath.Match("*.pprof", name)` for a directory entry: the name has no separator
and ends in `.pprof`. -/
def matchesPprof (name : String) : Bool :=
  !(name.toList.contains '/') && ".pprof".toList.isSuffixOf name.toList

/-! ## The measurement harness (main.go 30-130, 184-223) -/

/-- Go `type Compression string`. -/
abbrev Compression := String

def CompressionNone : Compression := "none"
def CompressionGzip : Compression := "gzip"
def CompressionZstd : Compression := "zstd"

/-- Bytes of a file or of an encoded profile. -/
abbrev Bytes := List Nat

/-- `type Result struct` (main.go 124-130). -/
structure Result where
  Filename : String
  Compression : String
  PlainBytes : Nat
  LabelBytes : Nat
  BreakdownBytes : Nat
deriving DecidableEq, Repr

/-- The external collaborators of the harness, as functions of their arguments: file
globbing, file reading, profile parsing, the two profile encoders, the zstd encoder
(construction, copy and close), file writing (the error, if any) and the CSV encoder of
the report (the error, if any). A Go `error` is the `Except.error` branch. -/
structure World where
  glob : String → Except String (List String)
  readFile : String → Except String Bytes
  parseData : Bytes → Except String (Store × Profile)
  writeUncompressed : Store → Profile → Except String Bytes
  write : Store → Profile → Except String Bytes
  zstdEncode : Bytes → Except String Bytes
  writeFile : String → Bytes → Option String
  encode : List (Option Result) → Option String

/-- `func (c Compression) Apply(prof *profile.Profile) ([]byte, error)` (main.go 192-223).
The outer `Except.error` is the panic of the default case, the inner one the returned
error. -/
def Compression.Apply (w : World) (c : Compression) (st : Store) (prof : Profile) :
    Except String (Except String Bytes) :=
  if c = CompressionNone then .ok (w.writeUncompressed st prof)
  else if c = CompressionGzip then .ok (w.write st prof)
  else if c = CompressionZstd then
    match w.writeUncompressed st prof with
    | .error e => .ok (.error e)
    | .ok uncompressed => .ok (w.zstdEncode uncompressed)
  else .error ("bug: unknown compression: " ++ c)

/-- `type Analyzer struct` (main.go 87-92); the profile pointer is a profile in its store. -/
structure Analyzer where
  Filename : String
  Store : Store
  Profile : Profile
  Compression : Compression
  OutDir : String
deriving DecidableEq, Repr

/-- `func (a *Analyzer) outFilename(variant Variant) string` (main.go 119-122). -/
def Analyzer.outFilename (a : Analyzer) (variant : Variant) : String :=
  match stringsCut (filepathBase a.Filename) ".pprof" with
  | (before, _, _) =>
    filepathJoin [a.OutDir, before ++ "." ++ a.Compression ++ "." ++ variant ++ ".pprof"]

/-- The write `*m = len(data)` through `mapping[variant]` (main.go 100-104, 114). -/
def Result.setBytes (r : Result) (variant : Variant) (n : Nat) : Result :=
  if variant = VariantPlain then { r with PlainBytes := n }
  else if variant = VariantBreakdown then { r with BreakdownBytes := n }
  else if variant = VariantLabel then { r with LabelBytes := n }
  else r

/-- The loop `for variant, m := range mapping` (main.go 105-116) over the keys in the order
the Go run time happens to pick. The result is the pair `(*Result, error)` that
`Analyzer.Run` returns; `Except.error` is a panic. -/
def Analyzer.runVariants (w : World) (a : Analyzer) :
    List Variant → Result → Except String (Option Result × Option String)
  | [], r => .ok (some r, none)
  | variant :: rest, r =>
    match Variant.Derive variant a.Store a.Profile with
    | .error msg => .error msg
    | .ok (st, variantProf) =>
      match Compression.Apply w a.Compression st variantProf with
      | .error msg => .error msg
      | .ok (.error err) => .ok (none, some err)
      | .ok (.ok data) =>
        match w.writeFile (a.outFilename variant) data with
        | some err => .ok (none, some err)
        | none => Analyzer.runVariants w a rest (r.setBytes variant data.length)

/-- `func (a *Analyzer) Run() (*Result, error)` (main.go 94-117); `order` is the iteration
order of the three keys of `mapping`. -/
def Analyzer.Run (w : World) (a : Analyzer) (order : List Variant) :
    Except String (Option Result × Option String) :=
  a.runVariants w order ⟨filepathBase a.Filename, a.Compression, 0, 0, 0⟩

/-- `type Cmd struct` (main.go 30-33). -/
structure Cmd where
  InDir : String
  OutDir : String
deriving DecidableEq, Repr

/-- `func (c *Cmd) inFiles() ([]string, error)` (main.go 83-85). -/
def Cmd.inFiles (w : World) (c : Cmd) : Except String (List String) :=
  w.glob (filepathJoin [c.InDir, "*.pprof"])

/-- The compression policies in the order of the inner loop (main.go 52). -/
def compressions : List Compression := [CompressionNone, CompressionGzip, CompressionZstd]

/-- The loop `for _, f := range files` (main.go 42-61): read and parse each file and append
one analyzer per compression policy. `Except.error` is the error that `Cmd.Run` returns. -/
def Cmd.loadAnalyzers (w : World) (c : Cmd) :
    List String → List Analyzer → Except String (List Analyzer)
  | [], analyzers => .ok analyzers
  | f :: files, analyzers =>
    match w.readFile f with
    | .error err => .error err
    | .ok data =>
      match w.parseData data with
      | .error err => .error err
      | .ok (st, prof) =>
        Cmd.loadAnalyzers w c files
          (analyzers ++ compressions.map (fun compression => ⟨f, st, prof, compression, c.OutDir⟩))

/-- What the goroutines of the error group share: the pre-sized `results` slice and the
first error the group has recorded. -/
structure Group where
  results : List (Option Result)
  err : Option String
deriving DecidableEq, Repr

/-- One goroutine of `eg.Go` (main.go 67-71) run to completion: `a.Run()`, the write of
its result into slot `i`, and the return of its error to the group, which keeps the
first one. `Except.error` is a panic, which ends the process. -/
def Cmd.runUnit (w : World) (orders : Nat → List Variant) (analyzers : List Analyzer)
    (g : Group) (i : Nat) : Except String Group :=
  match analyzers[i]? with
  | none => .ok g
  | some a =>
    match a.Run w (orders i) with
    | .error msg => .error msg
    | .ok (result, err) =>
      .ok ⟨g.results.set i result, match g.err with | some e => some e | none => err⟩

/-- The goroutines completing in the order `sched` (a list of unit indices). -/
def Cmd.runGroup (w : World) (orders : Nat → List Variant) (analyzers : List Analyzer) :
    List Nat → Group → Except String Group
  | [], g => .ok g
  | i :: sched, g =>
    match Cmd.runUnit w orders analyzers g i with
    | .error msg => .error msg
    | .ok g => Cmd.runGroup w orders analyzers sched g

/-- What `Cmd.Run` did: the result sequence it handed to the report encoder (`none` when
the encoder was never reached) and the error it returned. -/
structure Outcome where
  report : Option (List (Option Result))
  err : Option String
deriving DecidableEq, Repr

/-- `func (c *Cmd) Run() error` (main.go 35-81). `orders i` is the map iteration order in
unit `i` and `sched` the order in which the units complete. `Except.error` is a panic
in a unit, which ends the process before anything is reported. -/
def Cmd.Run (w : World) (c : Cmd) (orders : Nat → List Variant) (sched : List Nat) :
    Except String Outcome :=
  match c.inFiles w with
  | .error err => .ok ⟨none, some err⟩
  | .ok files =>
    match c.loadAnalyzers w files [] with
    | .error err => .ok ⟨none, some err⟩
    | .ok analyzers =>
      match Cmd.runGroup w orders analyzers sched ⟨List.replicate analyzers.length none, none⟩ with
      | .error msg => .error msg
      | .ok g =>
        match g.err with
        | some err => .ok ⟨none, some err⟩
        | none => .ok ⟨some g.results, w.encode g.results⟩

/-- Every input file is read and parsed successfully. -/
def FilesLoad (w : World) (files : List String) : Prop :=
  ∀ f ∈ files, ∃ data r, w.readFile f = .ok data ∧ w.parseData data = .ok r

/-- Every unit succeeds: its `Analyzer.Run` returns a result record and no error. -/
def UnitsSucceed (w : World) (orders : Nat → List Variant) (analyzers : List Analyzer) : Prop :=
  ∀ (i : Nat) (a : Analyzer), analyzers[i]? = some a →
    ∃ r, a.Run w (orders i) = .ok (some r, none)

/-- Every input file is read and parsed successfully and every unit succeeds. -/
def AllSucceed (w : World) (c : Cmd) (orders : Nat → List Variant) (files : List String) : Prop :=
  FilesLoad w files ∧
  ∀ analyzers, c.loadAnalyzers w files [] = .ok analyzers → UnitsSucceed w orders analyzers

/-- A world in which nothing fails: two input files, each parsed to `exampleProfile`. -/
def quietWorld : World where
  glob := fun _ => .ok ["in/a.pprof", "in/b.pprof"]
  readFile := fun _ => .ok []
  parseData := fun _ => .ok (⟨[]⟩, exampleProfile)
  writeUncompressed := fun _ _ => .ok [1, 2, 3]
  write := fun _ _ => .ok [1, 2]
  zstdEncode := fun _ => .ok [1]
  writeFile := fun _ _ => none
  encode := fun _ => none

/-- The directories of the example runs. -/
def exampleCmd : Cmd := ⟨"in", "out"⟩

/-- A map iteration order: `label` first. -/
def exampleOrders : Nat → List Variant := fun _ => [VariantLabel, VariantPlain, VariantBreakdown]

/-- The world `quietWorld` with a zstd encoder that fails. -/
def zstdFailsWorld : World := { quietWorld with zstdEncode := fun _ => .error "zstd: close failed" }

/-- The unit of input file `in/a.pprof` under policy `none`. -/
def unitA : Analyzer := ⟨"in/a.pprof", ⟨[]⟩, exampleProfile, CompressionNone, "out"⟩

/-- The unit of input file `in/a.pprof.pprof` under policy `none`. -/
def unitB : Analyzer := ⟨"in/a.pprof.pprof", ⟨[]⟩, exampleProfile, CompressionNone, "out"⟩

/-! ## The `label` loops: totality and the shape of the output -/

theorem deriveTick_ok (s : Sample) (b : Breakdown) (i : Nat) (tick : Int) (st : Store)
    (hi : i < b.LabelSet.length) (hv : s.Value ≠ []) (hn : b.Tick.length ≠ 0) :
    ∃ st' o, deriveTick s b i tick st = .ok (st', o) := by
  obtain ⟨v0, vs, hvs⟩ := List.exists_cons_of_ne_nil hv
  have hslot : b.LabelSet[i]? = some (b.LabelSet[i]) := List.getElem?_eq_getElem hi
  unfold deriveTick
  simp only [hslot, hvs, hn, if_false]
  exact ⟨_, _, rfl⟩

theorem deriveTicks_spec (s : Sample) (b : Breakdown) :
    ∀ (ticks : List Int) (i : Nat) (st : Store) (acc : List Sample),
      i + ticks.length ≤ b.LabelSet.length → ticks.length ≤ b.Tick.length →
      (ticks ≠ [] → s.Value ≠ []) →
      ∃ st' outs, deriveTicks s b i ticks st acc = .ok (st', acc ++ outs) ∧
        List.Forall₂ Produces outs ((ticks.enumFrom i).map (fun it => ⟨s, b, it.1, it.2⟩))
  | [], i, st, acc, _, _, _ => ⟨st, [], by simp [deriveTicks], by simp⟩
  | tick :: rest, i, st, acc, h1, h2, hv => by
    simp only [List.length_cons] at h1 h2
    have hv' : s.Value ≠ [] := hv (List.cons_ne_nil _ _)
    obtain ⟨st1, o, ho⟩ := deriveTick_ok s b i tick st (by omega) hv' (by omega)
    obtain ⟨st2, outs, hrun, hrel⟩ :=
      deriveTicks_spec s b rest (i + 1) st1 (acc ++ [o]) (by omega) (by omega) (fun _ => hv')
    refine ⟨st2, o :: outs, ?_, ?_⟩
    · simp only [deriveTicks, ho, hrun, List.append_assoc, List.singleton_append]
    · simp only [List.enumFrom_cons, List.map_cons]
      exact List.Forall₂.cons ⟨st, st1, ho⟩ hrel

theorem deriveBreakdowns_spec (s : Sample) :
    ∀ (bs : List Breakdown) (st : Store) (acc : List Sample),
      (∀ b ∈ bs, b.Tick.length ≤ b.LabelSet.length ∧ (b.Tick ≠ [] → s.Value ≠ [])) →
      ∃ st' outs, deriveBreakdowns s bs st acc = .ok (st', acc ++ outs) ∧
        List.Forall₂ Produces outs (bs.flatMap (ticksOfBreakdown s))
  | [], st, acc, _ => ⟨st, [], by simp [deriveBreakdowns], by simp⟩
  | b :: bs, st, acc, h => by
    obtain ⟨hb, hv⟩ := h b (List.mem_cons_self _ _)
    obtain ⟨st1, o1, hrun1, hrel1⟩ :=
      deriveTicks_spec s b b.Tick 0 st acc (by omega) (le_refl _) hv
    obtain ⟨st2, o2, hrun2, hrel2⟩ :=
      deriveBreakdowns_spec s bs st1 (acc ++ o1) (fun b' hb' => h b' (List.mem_cons_of_mem _ hb'))
    refine ⟨st2, o1 ++ o2, ?_, ?_⟩
    · simp only [deriveBreakdowns, hrun1, hrun2, List.append_assoc]
    · simp only [List.flatMap_cons]
      exact List.rel_append hrel1 hrel2

theorem deriveSamples_spec :
    ∀ (ss : List Sample) (st : Store) (acc : List Sample),
      (∀ s ∈ ss, s.LabelSafe) →
      ∃ st' chunks, deriveSamples ss st acc = .ok (st', acc ++ chunks.flatten) ∧
        List.Forall₂ (fun chunk s => List.Forall₂ Produces chunk (ticksOfSample s)) chunks ss
  | [], st, acc, _ => ⟨st, [], by simp [deriveSamples], by simp⟩
  | s :: ss, st, acc, h => by
    obtain ⟨st1, o1, hrun1, hrel1⟩ :=
      deriveBreakdowns_spec s s.Breakdown st acc (h s (List.mem_cons_self _ _))
    obtain ⟨st2, cs, hrun2, hrel2⟩ :=
      deriveSamples_spec ss st1 (acc ++ o1) (fun s' hs' => h s' (List.mem_cons_of_mem _ hs'))
    refine ⟨st2, o1 :: cs, ?_, ?_⟩
    · simp only [deriveSamples, hrun1, hrun2, List.append_assoc, List.flatten_cons]
    · exact List.Forall₂.cons hrel1 hrel2

theorem deriveTicks_shape (s : Sample) (b : Breakdown) :
    ∀ (ticks : List Int) (i : Nat) (st : Store) (acc : List Sample) (st' : Store)
      (acc' : List Sample), deriveTicks s b i ticks st acc = .ok (st', acc') →
      ∃ outs, acc' = acc ++ outs ∧
        List.Forall₂ Produces outs ((ticks.enumFrom i).map (fun it => ⟨s, b, it.1, it.2⟩))
  | [], i, st, acc, st', acc', h => by
    simp only [deriveTicks, Except.ok.injEq, Prod.mk.injEq] at h
    exact ⟨[], by simp [h.2], by simp⟩
  | tick :: rest, i, st, acc, st', acc', h => by
    unfold deriveTicks at h
    cases ho : deriveTick s b i tick st with
    | error e => simp [ho] at h
    | ok r =>
      obtain ⟨st1, o⟩ := r
      simp only [ho] at h
      obtain ⟨outs, hacc, hrel⟩ := deriveTicks_shape s b rest (i + 1) st1 _ st' acc' h
      refine ⟨o :: outs, by simp [hacc], ?_⟩
      simp only [List.enumFrom_cons, List.map_cons]
      exact List.Forall₂.cons ⟨st, st1, ho⟩ hrel

theorem deriveBreakdowns_shape (s : Sample) :
    ∀ (bs : List Breakdown) (st : Store) (acc : List Sample) (st' : Store)
      (acc' : List Sample), deriveBreakdowns s bs st acc = .ok (st', acc') →
      ∃ outs, acc' = acc ++ outs ∧
        List.Forall₂ Produces outs (bs.flatMap (ticksOfBreakdown s))
  | [], st, acc, st', acc', h => by
    simp only [deriveBreakdowns, Except.ok.injEq, Prod.mk.injEq] at h
    exact ⟨[], by simp [h.2], by simp⟩
  | b :: bs, st, acc, st', acc', h => by
    unfold deriveBreakdowns at h
    cases hb : deriveTicks s b 0 b.Tick st acc with
    | error e => simp [hb] at h
    | ok r =>
      obtain ⟨st1, acc1⟩ := r
      simp only [hb] at h
      obtain ⟨o1, hacc1, hrel1⟩ := deriveTicks_shape s b b.Tick 0 st acc st1 acc1 hb
      obtain ⟨o2, hacc2, hrel2⟩ := deriveBreakdowns_shape s bs st1 acc1 st' acc' h
      refine ⟨o1 ++ o2, by simp [hacc2, hacc1], ?_⟩
      simp only [List.flatMap_cons]
      exact List.rel_append hrel1 hrel2

theorem deriveSamples_shape :
    ∀ (ss : List Sample) (st : Store) (acc : List Sample) (st' : Store) (acc' : List Sample),
      deriveSamples ss st acc = .ok (st', acc') →
      ∃ chunks, acc' = acc ++ chunks.flatten ∧
        List.Forall₂ (fun chunk s => List.Forall₂ Produces chunk (ticksOfSample s)) chunks ss
  | [], st, acc, st', acc', h => by
    simp only [deriveSamples, Except.ok.injEq, Prod.mk.injEq] at h
    exact ⟨[], by simp [h.2], by simp⟩
  | s :: ss, st, acc, st', acc', h => by
    unfold deriveSamples at h
    cases hs : deriveBreakdowns s s.Breakdown st acc with
    | error e => simp [hs] at h
    | ok r =>
      obtain ⟨st1, acc1⟩ := r
      simp only [hs] at h
      obtain ⟨o1, hacc1, hrel1⟩ := deriveBreakdowns_shape s s.Breakdown st acc st1 acc1 hs
      obtain ⟨cs, hacc2, hrel2⟩ := deriveSamples_shape ss st1 acc1 st' acc' h
      exact ⟨o1 :: cs, by simp [hacc2, hacc1], List.Forall₂.cons hrel1 hrel2⟩

/-- Whenever the `label` case returns, its samples are the concatenation of one chunk per
input sample, each chunk holding what the loop body builds at the ticks of that sample,
in order; the rest of the profile is the input's, the profile-wide label-set cleared. -/
theorem derive_label_shape (st : Store) (p : Profile) (st' : Store) (out : Profile)
    (h : Variant.Derive VariantLabel st p = .ok (st', out)) :
    ∃ chunks,
      out = { p with Sample := chunks.flatten, LabelSet := [] } ∧
      List.Forall₂ (fun chunk s => List.Forall₂ Produces chunk (ticksOfSample s)) chunks p.Sample := by
  have h1 : ¬ (VariantLabel = VariantBreakdown) := by decide
  have h2 : ¬ (VariantLabel = VariantPlain) := by decide
  simp only [Variant.Derive, Profile.Copy, h1, h2, if_false, if_true] at h
  cases hs : deriveSamples p.Sample st [] with
  | error e => simp [hs] at h
  | ok r =>
    obtain ⟨st1, acc1⟩ := r
    simp only [hs, Except.ok.injEq, Prod.mk.injEq] at h
    obtain ⟨chunks, hacc, hrel⟩ := deriveSamples_shape p.Sample st [] st1 acc1 hs
    exact ⟨chunks, by rw [← h.2, hacc, List.nil_append], hrel⟩

/-- When no loop body can panic, the `label` case returns, and its samples are the
concatenation of one chunk per input sample, each chunk holding what the loop body
builds at the ticks of that sample, in order. -/
theorem derive_label_chunks (st : Store) (p : Profile) (h : ∀ s ∈ p.Sample, s.LabelSafe) :
    ∃ st' chunks,
      Variant.Derive VariantLabel st p
        = .ok (st', { p with Sample := chunks.flatten, LabelSet := [] }) ∧
      List.Forall₂ (fun chunk s => List.Forall₂ Produces chunk (ticksOfSample s)) chunks p.Sample := by
  obtain ⟨st', chunks, hrun, hrel⟩ := deriveSamples_spec p.Sample st [] h
  refine ⟨st', chunks, ?_, hrel⟩
  have h1 : ¬ (VariantLabel = VariantBreakdown) := by decide
  have h2 : ¬ (VariantLabel = VariantPlain) := by decide
  simp only [Variant.Derive, Profile.Copy, h1, h2, if_false, if_true, hrun, List.nil_append]

theorem labelSafe_of_invariant {p : Profile} (h : p.Invariant) : ∀ s ∈ p.Sample, s.LabelSafe :=
  fun s hs b hb => ⟨le_of_eq ((h s hs).2 b hb).symm, fun _ => (h s hs).1⟩

theorem derive_plain_eq (st : Store) (p : Profile) :
    Variant.Derive VariantPlain st p
      = .ok (st, { p with Sample := p.Sample.map (fun s => { s with Breakdown := [] }),
                          LabelSet := [] }) := by
  have h1 : ¬ (VariantPlain = VariantBreakdown) := by decide
  simp only [Variant.Derive, Profile.Copy, h1, if_false, if_true]

theorem derive_breakdown_eq (st : Store) (p : Profile) :
    Variant.Derive VariantBreakdown st p = .ok (st, p) := by
  simp [Variant.Derive]

theorem derive_known_ok (v : Variant) (st : Store) (p : Profile)
    (hsafe : ∀ s ∈ p.Sample, s.LabelSafe) (hk : Variant.Known v) :
    ∃ r, Variant.Derive v st p = .ok r := by
  rcases hk with rfl | rfl | rfl
  · exact ⟨_, derive_plain_eq st p⟩
  · exact ⟨_, derive_breakdown_eq st p⟩
  · obtain ⟨st', chunks, hrun, _⟩ := derive_label_chunks st p hsafe
    exact ⟨_, hrun⟩

/-- What the loop body builds at a tick, store aside: the parent's stack, no breakdown, the
parent's values with slot 0 divided by the entry's tick count, and the labels of the
bundle in the tick's slot, or of the parent when that slot is nil. -/
theorem produces_fields {o : Sample} {t : TickSite} (h : Produces o t) :
    o.Location = t.s.Location ∧ o.Breakdown = [] ∧
    (∃ v0 vs, t.s.Value = v0 :: vs ∧ o.Value = Int.tdiv v0 (t.b.Tick.length : Int) :: vs) ∧
    t.b.Tick.length ≠ 0 ∧
    (∃ slot, t.b.LabelSet[t.i]? = some slot ∧
      o.Label = (match slot with | some ls => ls.Label | none => t.s.Label) ∧
      o.NumUnit = (match slot with | some ls => ls.NumUnit | none => t.s.NumUnit)) := by
  obtain ⟨st, st', h⟩ := h
  unfold deriveTick at h
  cases hslot : t.b.LabelSet[t.i]? with
  | none => simp [hslot] at h
  | some slot =>
    cases hval : t.s.Value with
    | nil => simp [hslot, hval] at h
    | cons v0 vs =>
      by_cases hn : t.b.Tick.length = 0
      · simp [hslot, hval, hn] at h
      · simp only [hslot, hval, hn, if_false, Except.ok.injEq, Prod.mk.injEq] at h
        obtain ⟨_, rfl⟩ := h
        refine ⟨?_, rfl, ⟨v0, vs, rfl, rfl⟩, hn, slot, rfl, ?_, ?_⟩ <;> cases slot <;> rfl

theorem length_ticksOfBreakdown (s : Sample) (b : Breakdown) :
    (ticksOfBreakdown s b).length = b.Tick.length := by
  simp [ticksOfBreakdown]

theorem length_ticksOfSample (s : Sample) : (ticksOfSample s).length = s.tickCount := by
  unfold ticksOfSample Sample.tickCount
  induction s.Breakdown with
  | nil => rfl
  | cons b bs ih => simp [List.flatMap_cons, length_ticksOfBreakdown, ih]

theorem flatMap_ticksOfBreakdown_eq_nil (s : Sample) :
    ∀ (bs : List Breakdown), (∀ b ∈ bs, b.Tick = []) → bs.flatMap (ticksOfBreakdown s) = []
  | [], _ => rfl
  | b :: bs, h => by
    have hb : b.Tick = [] := h b (List.mem_cons_self _ _)
    simp only [List.flatMap_cons, ticksOfBreakdown, hb, List.enumFrom_nil, List.map_nil,
      List.nil_append]
    exact flatMap_ticksOfBreakdown_eq_nil s bs (fun b' hb' => h b' (List.mem_cons_of_mem _ hb'))

theorem ticksOfSample_eq_nil (s : Sample) (h : ∀ b ∈ s.Breakdown, b.Tick = []) :
    ticksOfSample s = [] :=
  flatMap_ticksOfBreakdown_eq_nil s s.Breakdown h

/-- The chunks of the output, joined, face the ticks of the profile one to one. -/
theorem forall₂_flatten_ticksOf {R : Sample → TickSite → Prop} :
    ∀ {chunks : List (List Sample)} {ss : List Sample},
      List.Forall₂ (fun chunk s => List.Forall₂ R chunk (ticksOfSample s)) chunks ss →
      List.Forall₂ R chunks.flatten (ss.flatMap ticksOfSample)
  | _, _, .nil => by simp
  | _, _, .cons h hs => by
    simp only [List.flatten_cons, List.flatMap_cons]
    exact List.rel_append h (forall₂_flatten_ticksOf hs)

theorem length_ticksOf (p : Profile) : (ticksOf p).length = (p.Sample.map Sample.tickCount).sum := by
  unfold ticksOf
  induction p.Sample with
  | nil => rfl
  | cons s ss ih => simp [List.flatMap_cons, length_ticksOfSample, ih]

/-- Dividing an int64 by a positive length stays within int64: the division of
`Variant.Derive` never wraps. -/
theorem tdiv_length_in_int64 (a : Int) (n : Nat) (hn : 0 < n)
    (h : -2 ^ 63 ≤ a ∧ a < 2 ^ 63) : -2 ^ 63 ≤ a.tdiv n ∧ a.tdiv n < 2 ^ 63 := by
  have hn' : (0 : Int) < n := by exact_mod_cast hn
  rcases le_or_lt 0 a with ha | ha
  · have h1 : 0 ≤ a.tdiv n := Int.tdiv_nonneg ha hn'.le
    have h2 : a.tdiv n ≤ a := by
      rw [Int.tdiv_eq_ediv ha hn'.le]; exact Int.ediv_le_self _ ha
    omega
  · have h0 : a.tdiv n = -((-a).tdiv n) := by rw [Int.neg_tdiv]; simp
    have h1 : 0 ≤ (-a).tdiv n := Int.tdiv_nonneg (by omega) hn'.le
    have h2 : (-a).tdiv n ≤ -a := by
      rw [Int.tdiv_eq_ediv (by omega) hn'.le]; exact Int.ediv_le_self _ (by omega)
    omega

/-- The value vector that the loop body builds at a tick. -/
theorem produces_value {o : Sample} {t : TickSite} (h : Produces o t) :
    0 < t.b.Tick.length ∧
    (∃ v0, t.s.Value[0]? = some v0 ∧
      o.Value[0]? = some (Int.tdiv v0 (t.b.Tick.length : Int))) ∧
    o.Value.length = t.s.Value.length ∧
    (∀ k, 0 < k → o.Value[k]? = t.s.Value[k]?) := by
  obtain ⟨_, _, ⟨v0, vs, hs, ho⟩, hn, _⟩ := produces_fields h
  refine ⟨Nat.pos_of_ne_zero hn, ⟨v0, by simp [hs], by simp [ho]⟩, by simp [hs, ho], ?_⟩
  intro k hk
  obtain ⟨k', rfl⟩ : ∃ k', k = k' + 1 := ⟨k - 1, by omega⟩
  simp [hs, ho]

theorem produces_value0 {o : Sample} {t : TickSite} (h : Produces o t) :
    o.value0 = Int.tdiv t.s.value0 (t.b.Tick.length : Int) := by
  obtain ⟨_, _, ⟨v0, vs, hs, ho⟩, _⟩ := produces_fields h
  simp [Sample.value0, hs, ho]

theorem map_value0_of_produces :
    ∀ {outs : List Sample} {sites : List TickSite}, List.Forall₂ Produces outs sites →
      outs.map Sample.value0
        = sites.map (fun t => Int.tdiv t.s.value0 (t.b.Tick.length : Int))
  | _, _, .nil => rfl
  | _, _, .cons h hs => by
    simp only [List.map_cons, produces_value0 h, map_value0_of_produces hs]

theorem sum_ticksOfBreakdowns (s : Sample) :
    ∀ (bs : List Breakdown),
      ((bs.flatMap (ticksOfBreakdown s)).map
          (fun t => Int.tdiv t.s.value0 (t.b.Tick.length : Int))).sum
        = ((bs.filter (fun b => decide (0 < b.Tick.length))).map
            (fun b => (b.Tick.length : Int) * Int.tdiv s.value0 (b.Tick.length : Int))).sum
  | [] => rfl
  | b :: bs => by
    have hb : ((ticksOfBreakdown s b).map
          (fun t => Int.tdiv t.s.value0 (t.b.Tick.length : Int))).sum
        = (b.Tick.length : Int) * Int.tdiv s.value0 (b.Tick.length : Int) := by
      simp [ticksOfBreakdown, Function.comp_def]
    simp only [List.flatMap_cons, List.map_append, List.sum_append, hb,
      sum_ticksOfBreakdowns s bs, List.filter_cons]
    by_cases h0 : 0 < b.Tick.length
    · simp [h0]
    · have : b.Tick.length = 0 := by omega
      simp [this]

/-! ## The claims about `Variant.Derive` -/

/-- C1: for every profile satisfying the data-model invariant, `Variant.Derive` with the
`label` tag returns, and its sample sequence is one sample per tick, in the order of the
input's samples, then of each sample's breakdown entries, then of each entry's tick
indices; each such sample is the one the loop body builds at that tick and carries the
parent's stack and an empty breakdown. The output splits into one chunk per input sample,
a chunk has as many samples as its sample has ticks, it is empty for a sample without
ticks, the number of output samples is the total number of ticks, and a profile without
ticks yields no sample. -/
theorem C1_label_one_sample_per_tick (st : Store) (p : Profile) (h : p.Invariant) :
    ∃ st' out chunks,
      Variant.Derive VariantLabel st p = .ok (st', out) ∧
      out.Sample = chunks.flatten ∧
      List.Forall₂ (fun chunk s =>
        List.Forall₂ (fun o t => Produces o t ∧ o.Location = t.s.Location ∧ o.Breakdown = [])
          chunk (ticksOfSample s) ∧
        chunk.length = s.tickCount ∧
        ((∀ b ∈ s.Breakdown, b.Tick = []) → chunk = [])) chunks p.Sample ∧
      List.Forall₂ (fun o t => Produces o t ∧ o.Location = t.s.Location ∧ o.Breakdown = [])
        out.Sample (ticksOf p) ∧
      out.Sample.length = (p.Sample.map Sample.tickCount).sum ∧
      ((∀ s ∈ p.Sample, ∀ b ∈ s.Breakdown, b.Tick = []) → out.Sample = []) := by
  obtain ⟨st', chunks, hrun, hrel⟩ := derive_label_chunks st p (labelSafe_of_invariant h)
  have hfields : ∀ (o : Sample) (t : TickSite), Produces o t →
      Produces o t ∧ o.Location = t.s.Location ∧ o.Breakdown = [] :=
    fun o t hp => ⟨hp, (produces_fields hp).1, (produces_fields hp).2.1⟩
  have hflat : List.Forall₂ (fun o t => Produces o t ∧ o.Location = t.s.Location ∧ o.Breakdown = [])
      chunks.flatten (ticksOf p) :=
    forall₂_flatten_ticksOf (hrel.imp (fun _ _ hc => hc.imp hfields))
  have hlen : chunks.flatten.length = (p.Sample.map Sample.tickCount).sum := by
    rw [hflat.length_eq, length_ticksOf]
  refine ⟨st', _, chunks, hrun, rfl, ?_, hflat, hlen, ?_⟩
  · refine hrel.imp (fun chunk s hc => ⟨hc.imp hfields, ?_, ?_⟩)
    · rw [hc.length_eq, length_ticksOfSample]
    · intro hnil
      have := hc.length_eq
      rw [ticksOfSample_eq_nil s hnil] at this
      exact List.length_eq_zero.mp this
  · intro hnil
    apply List.length_eq_zero.mp
    show chunks.flatten.length = 0
    rw [hlen]
    apply List.sum_eq_zero
    intro n hn
    obtain ⟨s, hs, rfl⟩ := List.mem_map.mp hn
    rw [← length_ticksOfSample, ticksOfSample_eq_nil s (hnil s hs)]
    rfl

theorem C1_witness :
    exampleProfile.Invariant ∧
    ∃ st' out chunks,
      Variant.Derive VariantLabel ⟨[]⟩ exampleProfile = .ok (st', out) ∧
      out.Sample = chunks.flatten ∧
      List.Forall₂ (fun chunk s =>
        List.Forall₂ (fun o t => Produces o t ∧ o.Location = t.s.Location ∧ o.Breakdown = [])
          chunk (ticksOfSample s) ∧
        chunk.length = s.tickCount ∧
        ((∀ b ∈ s.Breakdown, b.Tick = []) → chunk = [])) chunks exampleProfile.Sample ∧
      List.Forall₂ (fun o t => Produces o t ∧ o.Location = t.s.Location ∧ o.Breakdown = [])
        out.Sample (ticksOf exampleProfile) ∧
      out.Sample.length = (exampleProfile.Sample.map Sample.tickCount).sum ∧
      ((∀ s ∈ exampleProfile.Sample, ∀ b ∈ s.Breakdown, b.Tick = []) → out.Sample = []) :=
  ⟨by decide, C1_label_one_sample_per_tick ⟨[]⟩ exampleProfile (by decide)⟩

/-- C2: whenever `Variant.Derive` with the `label` tag returns (as it does under the
data-model invariant), every sample it builds from a tick of entry `b` of sample `s`
comes from an entry with at least one tick, has in slot 0 the quotient of `s.Value[0]` by
`len(b.Tick)` truncated toward zero (which lies in the int64 range whenever `s.Value[0]`
does, so the division does not wrap), has a value vector as long as that of `s`, and
agrees with `s` on every other slot. With value `[100, 1]` and one entry of 4 ticks each of
the 4 samples has value `[25, 1]`. -/
theorem C2_label_value_apportioned (st : Store) (p : Profile) :
    (∀ st' out, Variant.Derive VariantLabel st p = .ok (st', out) →
      List.Forall₂ (fun o t =>
        Produces o t ∧ 0 < t.b.Tick.length ∧
        (∃ v0, t.s.Value[0]? = some v0 ∧
          o.Value[0]? = some (Int.tdiv v0 (t.b.Tick.length : Int)) ∧
          (-2 ^ 63 ≤ v0 ∧ v0 < 2 ^ 63 →
            -2 ^ 63 ≤ Int.tdiv v0 (t.b.Tick.length : Int) ∧
            Int.tdiv v0 (t.b.Tick.length : Int) < 2 ^ 63)) ∧
        o.Value.length = t.s.Value.length ∧
        (∀ k, 0 < k → o.Value[k]? = t.s.Value[k]?)) out.Sample (ticksOf p)) ∧
    (p.Invariant → ∃ r, Variant.Derive VariantLabel st p = .ok r) ∧
    (∃ st' out,
      Variant.Derive VariantLabel ⟨[]⟩ exampleProfile = .ok (st', out) ∧
      exampleProfile.Sample.map Sample.Value = [[100, 1]] ∧
      exampleProfile.Sample.map Sample.tickCount = [4] ∧
      out.Sample.map Sample.Value = [[25, 1], [25, 1], [25, 1], [25, 1]]) := by
  refine ⟨?_, ?_, _, _, rfl, by decide, by decide, by decide⟩
  · intro st' out hrun
    obtain ⟨chunks, rfl, hrel⟩ := derive_label_shape st p st' out hrun
    refine forall₂_flatten_ticksOf (hrel.imp (fun _ _ hc => hc.imp ?_))
    intro o t hp
    obtain ⟨hpos, ⟨v0, hv0, hq⟩, hlen, hrest⟩ := produces_value hp
    exact ⟨hp, hpos, ⟨v0, hv0, hq, tdiv_length_in_int64 v0 _ hpos⟩, hlen, hrest⟩
  · intro h
    obtain ⟨st', chunks, hrun, _⟩ := derive_label_chunks st p (labelSafe_of_invariant h)
    exact ⟨_, hrun⟩

theorem C2_witness :
    List.Forall₂ (fun o t =>
      Produces o t ∧ 0 < t.b.Tick.length ∧
      (∃ v0, t.s.Value[0]? = some v0 ∧
        o.Value[0]? = some (Int.tdiv v0 (t.b.Tick.length : Int)) ∧
        (-2 ^ 63 ≤ v0 ∧ v0 < 2 ^ 63 →
          -2 ^ 63 ≤ Int.tdiv v0 (t.b.Tick.length : Int) ∧
          Int.tdiv v0 (t.b.Tick.length : Int) < 2 ^ 63)) ∧
      o.Value.length = t.s.Value.length ∧
      (∀ k, 0 < k → o.Value[k]? = t.s.Value[k]?))
      exampleLabelOutput.2.Sample (ticksOf exampleProfile) :=
  (C2_label_value_apportioned ⟨[]⟩ exampleProfile).1 exampleLabelOutput.1 exampleLabelOutput.2 rfl

/-- C4: for every profile, `Variant.Derive` with the `plain` tag returns a profile with as
many samples as the input, in the same order, each with an empty breakdown and with the
stack, value vector, label, numLabel (the same map reference into an unchanged store) and
numUnit of the input sample; the profile-wide label-set is cleared and the tick unit and
the remaining metadata are those of the input. -/
theorem C4_plain_strips_breakdown (st : Store) (p : Profile) :
    ∃ out,
      Variant.Derive VariantPlain st p = .ok (st, out) ∧
      out.Sample.length = p.Sample.length ∧
      List.Forall₂ (fun o s =>
        o.Breakdown = [] ∧ o.Location = s.Location ∧ o.Value = s.Value ∧
        o.Label = s.Label ∧ o.NumLabel = s.NumLabel ∧ o.NumUnit = s.NumUnit)
        out.Sample p.Sample ∧
      out.LabelSet = [] ∧ out.TickUnit = p.TickUnit ∧ out.Other = p.Other := by
  refine ⟨_, derive_plain_eq st p, by simp, ?_, rfl, rfl, rfl⟩
  show List.Forall₂ _ (p.Sample.map (fun s => { s with Breakdown := [] })) p.Sample
  rw [List.forall₂_map_left_iff]
  exact List.forall₂_same.mpr (fun s _ => ⟨rfl, rfl, rfl, rfl, rfl, rfl⟩)

/-- C5: for every profile, `Variant.Derive` with the `breakdown` tag returns the input
profile itself, in the unchanged store. -/
theorem C5_breakdown_identity (st : Store) (p : Profile) :
    Variant.Derive VariantBreakdown st p = .ok (st, p) := by
  simp [Variant.Derive]

/-- C6, refuted as stated: the profile `emptyValueProfile` satisfies the listed invariants
(one slot per tick, all value vectors of equal length, here 0), `label` is one of the
three tags, and `Variant.Derive` with the `label` tag panics on it with an index out of
range at `newS.Value[0]`. -/
theorem C6_listed_invariants_allow_panic :
    emptyValueProfile.ListedInvariants ∧ Variant.Known VariantLabel ∧
    Variant.Derive VariantLabel ⟨[]⟩ emptyValueProfile = .error "index out of range" :=
  ⟨by decide, by decide, rfl⟩

/-- C6, amended: for every profile satisfying the listed invariants in which, moreover,
every sample with at least one tick has a value slot 0, `Variant.Derive` returns a
profile for each of the tags `plain`, `breakdown` and `label`, and it panics if and only
if the tag is none of these three. -/
theorem C6_derive_total_on_known_tags (v : Variant) (st : Store) (p : Profile)
    (h : p.ListedInvariants) (hv : p.TickedHaveValue) :
    (Variant.Known v → ∃ r, Variant.Derive v st p = .ok r) ∧
    ((∃ e, Variant.Derive v st p = .error e) ↔ ¬ Variant.Known v) := by
  have hsafe : ∀ s ∈ p.Sample, s.LabelSafe :=
    fun s hs b hb => ⟨le_of_eq (h.1 s hs b hb).symm, hv s hs b hb⟩
  refine ⟨derive_known_ok v st p hsafe, ?_, ?_⟩
  · rintro ⟨e, he⟩ hk
    obtain ⟨r, hr⟩ := derive_known_ok v st p hsafe hk
    rw [hr] at he
    cases he
  · intro hk
    have h1 : ¬ v = VariantBreakdown := fun e => hk (Or.inr (Or.inl e))
    have h2 : ¬ v = VariantPlain := fun e => hk (Or.inl e)
    have h3 : ¬ v = VariantLabel := fun e => hk (Or.inr (Or.inr e))
    refine ⟨"bug: unknown variant: " ++ v, ?_⟩
    simp only [Variant.Derive, Profile.Copy, h1, h2, h3, if_false]

theorem C6_witness :
    exampleProfile.ListedInvariants ∧ exampleProfile.TickedHaveValue ∧
    (Variant.Known VariantLabel → ∃ r, Variant.Derive VariantLabel ⟨[]⟩ exampleProfile = .ok r) ∧
    ((∃ e, Variant.Derive VariantLabel ⟨[]⟩ exampleProfile = .error e)
      ↔ ¬ Variant.Known VariantLabel) :=
  ⟨by decide, by decide,
    C6_derive_total_on_known_tags VariantLabel ⟨[]⟩ exampleProfile (by decide) (by decide)⟩

/-- C10: whenever `Variant.Derive` with the `label` tag returns (as it does under the
data-model invariant), the samples it derives from sample `s` (the chunk of the output
for `s`, as long as `s` has ticks) have slot-0 values that sum to the sum, over the
breakdown entries of `s` with at least one tick, of the tick count times the truncated
quotient of `s.Value[0]` by that tick count. This sum need not be `s.Value[0]`: value 100
with one 3-tick entry gives 99, and value 100 with two 4-tick entries gives 200. -/
theorem C10_apportionment_not_conserving (st : Store) (p : Profile) :
    (∀ st' out, Variant.Derive VariantLabel st p = .ok (st', out) →
      ∃ chunks,
        out.Sample = chunks.flatten ∧
        List.Forall₂ (fun chunk s =>
          chunk.length = s.tickCount ∧
          (chunk.map Sample.value0).sum
            = ((s.Breakdown.filter (fun b => decide (0 < b.Tick.length))).map
                (fun b => (b.Tick.length : Int) * Int.tdiv s.value0 (b.Tick.length : Int))).sum)
          chunks p.Sample) ∧
    (p.Invariant → ∃ r, Variant.Derive VariantLabel st p = .ok r) ∧
    (∃ st' out,
      Variant.Derive VariantLabel ⟨[]⟩ threeTickProfile = .ok (st', out) ∧
      threeTickProfile.Sample.map Sample.value0 = [100] ∧
      (out.Sample.map Sample.value0).sum = 99) ∧
    (∃ st' out,
      Variant.Derive VariantLabel ⟨[]⟩ twoEntryProfile = .ok (st', out) ∧
      twoEntryProfile.Sample.map Sample.value0 = [100] ∧
      (out.Sample.map Sample.value0).sum = 200) := by
  refine ⟨?_, ?_, ⟨_, _, rfl, by decide, by decide⟩, ⟨_, _, rfl, by decide, by decide⟩⟩
  · intro st' out hrun
    obtain ⟨chunks, rfl, hrel⟩ := derive_label_shape st p st' out hrun
    refine ⟨chunks, rfl, hrel.imp (fun chunk s hc => ⟨?_, ?_⟩)⟩
    · rw [hc.length_eq, length_ticksOfSample]
    · rw [map_value0_of_produces hc]
      exact sum_ticksOfBreakdowns s s.Breakdown
  · intro h
    obtain ⟨st', chunks, hrun, _⟩ := derive_label_chunks st p (labelSafe_of_invariant h)
    exact ⟨_, hrun⟩

theorem C10_witness :
    ∃ chunks,
      threeTickLabelOutput.2.Sample = chunks.flatten ∧
      List.Forall₂ (fun chunk s =>
        chunk.length = s.tickCount ∧
        (chunk.map Sample.value0).sum
          = ((s.Breakdown.filter (fun b => decide (0 < b.Tick.length))).map
              (fun b => (b.Tick.length : Int) * Int.tdiv s.value0 (b.Tick.length : Int))).sum)
        chunks threeTickProfile.Sample :=
  (C10_apportionment_not_conserving ⟨[]⟩ threeTickProfile).1
    threeTickLabelOutput.1 threeTickLabelOutput.2 rfl

/-- C3, the code at a failing input: a sample with a sample-level `NumLabel` map and two
ticks `[10, 20]` without label sets. Both derived samples hold the parent's map itself
(reference 0), every tick is appended to that one map, and in the result each of the two
samples has `NumLabel["time"] = [10, 20]`, where the claim has `[10]` and `[20]`. The
same happens with a bundle whose map is reached from two slots: both samples end with
`[5, 10, 20]` where the claim has `[5, 10]` and `[5, 20]`. -/
theorem C3_shared_numLabel_map_accumulates_ticks :
    (sharedMapProfile.Invariant ∧
      (ticksOf sharedMapProfile).map (fun t => t.tick) = [10, 20] ∧
      ∃ st' out,
        Variant.Derive VariantLabel sharedMapStore sharedMapProfile = .ok (st', out) ∧
        out.Sample.map Sample.NumLabel = [some 0, some 0] ∧
        out.Sample.map (fun o => o.numLabelAt st' "time") = [[10, 20], [10, 20]] ∧
        out.Sample.map (fun o => o.numLabelAt st' "bytes") = [[8], [8]]) ∧
    (sharedBundleProfile.Invariant ∧
      (ticksOf sharedBundleProfile).map (fun t => t.tick) = [10, 20] ∧
      ∃ st' out,
        Variant.Derive VariantLabel sharedBundleStore sharedBundleProfile = .ok (st', out) ∧
        out.Sample.map Sample.NumLabel = [some 0, some 0] ∧
        out.Sample.map (fun o => o.numLabelAt st' "time") = [[5, 10, 20], [5, 10, 20]]) :=
  ⟨⟨by decide, by decide, _, _, rfl, by decide, by decide, by decide⟩,
   ⟨by decide, by decide, _, _, rfl, by decide, by decide⟩⟩

/-! ## The `label` case when no tick starts from an existing map -/

theorem deriveTick_fresh (s : Sample) (b : Breakdown) (i : Nat) (tick : Int) (st st' : Store)
    (o : Sample) (h : deriveTick s b i tick st = .ok (st', o))
    (hsrc : TickSite.mapSource ⟨s, b, i, tick⟩ = none) :
    st'.maps = st.maps ++ [TickSite.freshMap ⟨s, b, i, tick⟩] ∧
    o.NumLabel = some st.maps.length := by
  unfold deriveTick at h
  unfold TickSite.mapSource at hsrc
  simp only at hsrc
  cases hslot : b.LabelSet[i]? with
  | none => simp [hslot] at h
  | some slot =>
    cases hval : s.Value with
    | nil => simp [hslot, hval] at h
    | cons v0 vs =>
      by_cases hn : b.Tick.length = 0
      · simp [hslot, hval, hn] at h
      · cases slot with
        | none =>
          simp only [hslot] at hsrc
          simp only [hslot, hval, hn, hsrc, if_false, Except.ok.injEq, Prod.mk.injEq] at h
          obtain ⟨rfl, rfl⟩ := h
          simp [Store.make, Store.write, Store.read, numLabelSet, numLabelGet,
            TickSite.freshMap]
        | some ls =>
          simp only [hslot] at hsrc
          simp only [hslot, hval, hn, hsrc, if_false, Except.ok.injEq, Prod.mk.injEq] at h
          obtain ⟨rfl, rfl⟩ := h
          simp [Store.make, Store.write, Store.read, numLabelSet, numLabelGet,
            TickSite.freshMap]

theorem FreshRun.nil (st : Store) : FreshRun st st [] [] := by
  simp [FreshRun]

theorem FreshRun.append {st st1 st2 : Store} {o1 o2 : List Sample} {l1 l2 : List TickSite}
    (h1 : FreshRun st st1 o1 l1) (h2 : FreshRun st1 st2 o2 l2) :
    FreshRun st st2 (o1 ++ o2) (l1 ++ l2) := by
  obtain ⟨hm1, hr1⟩ := h1
  obtain ⟨hm2, hr2⟩ := h2
  refine ⟨by rw [hm2, hm1, List.map_append, List.append_assoc], ?_⟩
  rw [List.map_append, hr1, hr2, hm1, List.length_append, List.length_map, List.length_append,
    ← List.map_append]
  congr 1
  rw [List.range'_append_1, Nat.add_comm]

theorem deriveTicks_fresh (s : Sample) (b : Breakdown) :
    ∀ (ticks : List Int) (i : Nat) (st : Store) (acc : List Sample) (st' : Store)
      (acc' : List Sample), deriveTicks s b i ticks st acc = .ok (st', acc') →
      (∀ t ∈ (ticks.enumFrom i).map (fun it => (⟨s, b, it.1, it.2⟩ : TickSite)),
        t.mapSource = none) →
      ∃ outs, acc' = acc ++ outs ∧
        FreshRun st st' outs ((ticks.enumFrom i).map (fun it => ⟨s, b, it.1, it.2⟩))
  | [], i, st, acc, st', acc', h, _ => by
    simp only [deriveTicks, Except.ok.injEq, Prod.mk.injEq] at h
    obtain ⟨rfl, rfl⟩ := h
    exact ⟨[], by simp, FreshRun.nil _⟩
  | tick :: rest, i, st, acc, st', acc', h, hsrc => by
    unfold deriveTicks at h
    cases ho : deriveTick s b i tick st with
    | error e => simp [ho] at h
    | ok r =>
      obtain ⟨st1, o⟩ := r
      simp only [ho] at h
      simp only [List.enumFrom_cons, List.map_cons, List.mem_cons, forall_eq_or_imp] at hsrc
      obtain ⟨hm, hr⟩ := deriveTick_fresh s b i tick st st1 o ho hsrc.1
      obtain ⟨outs, hacc, hrun⟩ := deriveTicks_fresh s b rest (i + 1) st1 _ st' acc' h hsrc.2
      refine ⟨o :: outs, by simp [hacc], ?_⟩
      simp only [List.enumFrom_cons, List.map_cons]
      have hone : FreshRun st st1 [o] [(⟨s, b, i, tick⟩ : TickSite)] :=
        ⟨by simp [hm], by simp [hr]⟩
      exact FreshRun.append hone hrun

theorem deriveBreakdowns_fresh (s : Sample) :
    ∀ (bs : List Breakdown) (st : Store) (acc : List Sample) (st' : Store)
      (acc' : List Sample), deriveBreakdowns s bs st acc = .ok (st', acc') →
      (∀ t ∈ bs.flatMap (ticksOfBreakdown s), t.mapSource = none) →
      ∃ outs, acc' = acc ++ outs ∧ FreshRun st st' outs (bs.flatMap (ticksOfBreakdown s))
  | [], st, acc, st', acc', h, _ => by
    simp only [deriveBreakdowns, Except.ok.injEq, Prod.mk.injEq] at h
    obtain ⟨rfl, rfl⟩ := h
    exact ⟨[], by simp, FreshRun.nil _⟩
  | b :: bs, st, acc, st', acc', h, hsrc => by
    unfold deriveBreakdowns at h
    cases hb : deriveTicks s b 0 b.Tick st acc with
    | error e => simp [hb] at h
    | ok r =>
      obtain ⟨st1, acc1⟩ := r
      simp only [hb] at h
      simp only [List.flatMap_cons, List.mem_append] at hsrc
      obtain ⟨o1, hacc1, hrun1⟩ := deriveTicks_fresh s b b.Tick 0 st acc st1 acc1 hb
        (fun t ht => hsrc t (Or.inl ht))
      obtain ⟨o2, hacc2, hrun2⟩ := deriveBreakdowns_fresh s bs st1 acc1 st' acc' h
        (fun t ht => hsrc t (Or.inr ht))
      refine ⟨o1 ++ o2, by simp [hacc2, hacc1], ?_⟩
      simp only [List.flatMap_cons]
      exact FreshRun.append hrun1 hrun2

theorem deriveSamples_fresh :
    ∀ (ss : List Sample) (st : Store) (acc : List Sample) (st' : Store) (acc' : List Sample),
      deriveSamples ss st acc = .ok (st', acc') →
      (∀ t ∈ ss.flatMap ticksOfSample, t.mapSource = none) →
      ∃ outs, acc' = acc ++ outs ∧ FreshRun st st' outs (ss.flatMap ticksOfSample)
  | [], st, acc, st', acc', h, _ => by
    simp only [deriveSamples, Except.ok.injEq, Prod.mk.injEq] at h
    obtain ⟨rfl, rfl⟩ := h
    exact ⟨[], by simp, FreshRun.nil _⟩
  | s :: ss, st, acc, st', acc', h, hsrc => by
    unfold deriveSamples at h
    cases hs : deriveBreakdowns s s.Breakdown st acc with
    | error e => simp [hs] at h
    | ok r =>
      obtain ⟨st1, acc1⟩ := r
      simp only [hs] at h
      simp only [List.flatMap_cons, List.mem_append] at hsrc
      obtain ⟨o1, hacc1, hrun1⟩ := deriveBreakdowns_fresh s s.Breakdown st acc st1 acc1 hs
        (fun t ht => hsrc t (Or.inl ht))
      obtain ⟨o2, hacc2, hrun2⟩ := deriveSamples_fresh ss st1 acc1 st' acc' h
        (fun t ht => hsrc t (Or.inr ht))
      refine ⟨o1 ++ o2, by simp [hacc2, hacc1], ?_⟩
      simp only [List.flatMap_cons]
      exact FreshRun.append hrun1 hrun2

theorem time_of_fresh_maps :
    ∀ (sites : List TickSite) (maps : List NumLabelMap),
      (List.range' maps.length sites.length).map
          (fun r => numLabelGet ((maps ++ sites.map TickSite.freshMap).getD r []) "time")
        = sites.map (fun t => [t.tick])
  | [], _ => by simp
  | t :: sites, maps => by
    have ih := time_of_fresh_maps sites (maps ++ [t.freshMap])
    simp only [List.length_append, List.length_singleton, List.append_assoc,
      List.singleton_append] at ih
    have hhead : (maps ++ t.freshMap :: sites.map TickSite.freshMap).getD maps.length []
        = t.freshMap := by
      rw [List.getD_eq_getElem?_getD, List.getElem?_append_right (le_refl _)]
      simp
    simp only [List.length_cons, List.range'_succ, List.map_cons, ih, hhead]
    simp [TickSite.freshMap, numLabelGet]

/-- Where the claim C3 does hold: when no tick starts from an existing map (no
sample-level `NumLabel` and no bundle with one, as in the end-to-end scenario of the
spec), every derived sample gets a map of its own, made for it, and in the result its
`NumLabel["time"]` is the one-element list holding its tick. -/
theorem derive_label_fresh_time (st : Store) (p : Profile) (st' : Store) (out : Profile)
    (h : Variant.Derive VariantLabel st p = .ok (st', out))
    (hsrc : ∀ t ∈ ticksOf p, t.mapSource = none) :
    st'.maps = st.maps ++ (ticksOf p).map TickSite.freshMap ∧
    out.Sample.map Sample.NumLabel
      = (List.range' st.maps.length (ticksOf p).length).map some ∧
    out.Sample.map (fun o => o.numLabelAt st' "time") = (ticksOf p).map (fun t => [t.tick]) := by
  have h1 : ¬ (VariantLabel = VariantBreakdown) := by decide
  have h2 : ¬ (VariantLabel = VariantPlain) := by decide
  simp only [Variant.Derive, Profile.Copy, h1, h2, if_false, if_true] at h
  cases hs : deriveSamples p.Sample st [] with
  | error e => simp [hs] at h
  | ok r =>
    obtain ⟨st1, acc1⟩ := r
    simp only [hs, Except.ok.injEq, Prod.mk.injEq] at h
    obtain ⟨rfl, rfl⟩ := h
    obtain ⟨outs, hacc, hm, hr⟩ := deriveSamples_fresh p.Sample st [] st1 acc1 hs hsrc
    rw [List.nil_append] at hacc
    subst hacc
    refine ⟨hm, hr, ?_⟩
    have hfun : (fun o : Sample => o.numLabelAt st1 "time")
        = (fun r : Option Nat => match r with
            | some r => numLabelGet (st1.maps.getD r []) "time"
            | none => []) ∘ Sample.NumLabel := by
      funext o
      simp only [Sample.numLabelAt, Store.read, Function.comp]
    show List.map (fun o : Sample => o.numLabelAt st1 "time") acc1 = _
    rw [hfun, ← List.map_map, hr, List.map_map, hm]
    exact time_of_fresh_maps (p.Sample.flatMap ticksOfSample) st.maps

theorem produces_numLabel {o : Sample} {t : TickSite} (h : Produces o t) (r : Nat)
    (hsrc : t.mapSource = some r) : o.NumLabel = some r := by
  obtain ⟨st, st', h⟩ := h
  unfold deriveTick at h
  unfold TickSite.mapSource at hsrc
  cases hslot : t.b.LabelSet[t.i]? with
  | none => simp [hslot] at h
  | some slot =>
    cases hval : t.s.Value with
    | nil => simp [hslot, hval] at h
    | cons v0 vs =>
      by_cases hn : t.b.Tick.length = 0
      · simp [hslot, hval, hn] at h
      · cases slot with
        | none =>
          simp only [hslot] at hsrc
          simp only [hslot, hval, hn, hsrc, if_false, Except.ok.injEq, Prod.mk.injEq] at h
          obtain ⟨_, rfl⟩ := h
          rfl
        | some ls =>
          simp only [hslot] at hsrc
          simp only [hslot, hval, hn, hsrc, if_false, Except.ok.injEq, Prod.mk.injEq] at h
          obtain ⟨_, rfl⟩ := h
          rfl

/-- The part of claim C3 that holds on every input: whenever the `label` case returns,
the sample derived from a tick has the label and numUnit of the bundle in the tick's
slot, or of the parent when the slot is nil, and when that bundle (or parent) has a
`NumLabel` map the sample holds that very map, not a copy of it. -/
theorem derive_label_labels (st : Store) (p : Profile) (st' : Store) (out : Profile)
    (h : Variant.Derive VariantLabel st p = .ok (st', out)) :
    List.Forall₂ (fun o t =>
      (∃ slot, t.b.LabelSet[t.i]? = some slot ∧
        o.Label = (match slot with | some ls => ls.Label | none => t.s.Label) ∧
        o.NumUnit = (match slot with | some ls => ls.NumUnit | none => t.s.NumUnit)) ∧
      (∀ r, t.mapSource = some r → o.NumLabel = some r)) out.Sample (ticksOf p) := by
  obtain ⟨chunks, rfl, hrel⟩ := derive_label_shape st p st' out h
  refine forall₂_flatten_ticksOf (hrel.imp (fun _ _ hc => hc.imp ?_))
  intro o t hp
  exact ⟨(produces_fields hp).2.2.2.2, produces_numLabel hp⟩

/-! ## The harness: loading, units and the error group -/

/-- The units of one parsed file: one analyzer per compression policy. -/
theorem loadAnalyzers_spec (w : World) (c : Cmd) :
    ∀ (files : List String) (acc analyzers : List Analyzer),
      c.loadAnalyzers w files acc = .ok analyzers →
      ∃ loaded : List (String × Store × Profile),
        loaded.map (fun x => x.1) = files ∧
        (∀ x ∈ loaded, ∃ data, w.readFile x.1 = .ok data ∧ w.parseData data = .ok x.2) ∧
        analyzers = acc ++ loaded.flatMap (fun x =>
          compressions.map (fun compression => ⟨x.1, x.2.1, x.2.2, compression, c.OutDir⟩))
  | [], acc, analyzers, h => by
    simp only [Cmd.loadAnalyzers, Except.ok.injEq] at h
    exact ⟨[], rfl, by simp, by simp [h]⟩
  | f :: files, acc, analyzers, h => by
    unfold Cmd.loadAnalyzers at h
    cases hread : w.readFile f with
    | error e => simp [hread] at h
    | ok data =>
      cases hparse : w.parseData data with
      | error e => simp [hread, hparse] at h
      | ok r =>
        obtain ⟨st, prof⟩ := r
        simp only [hread, hparse] at h
        obtain ⟨loaded, hmap, hall, heq⟩ := loadAnalyzers_spec w c files _ analyzers h
        refine ⟨(f, st, prof) :: loaded, by simp [hmap], ?_, ?_⟩
        · intro x hx
          rcases List.mem_cons.mp hx with rfl | hx
          · exact ⟨data, hread, hparse⟩
          · exact hall x hx
        · simp only [heq, List.flatMap_cons, List.append_assoc]

theorem loadAnalyzers_ok (w : World) (c : Cmd) :
    ∀ (files : List String) (acc : List Analyzer), FilesLoad w files →
      ∃ analyzers, c.loadAnalyzers w files acc = .ok analyzers
  | [], acc, _ => ⟨acc, rfl⟩
  | f :: files, acc, h => by
    obtain ⟨data, r, hread, hparse⟩ := h f (List.mem_cons_self _ _)
    obtain ⟨st, prof⟩ := r
    obtain ⟨analyzers, hrun⟩ := loadAnalyzers_ok w c files
      (acc ++ compressions.map (fun compression => ⟨f, st, prof, compression, c.OutDir⟩))
      (fun f' hf' => h f' (List.mem_cons_of_mem _ hf'))
    exact ⟨analyzers, by simp only [Cmd.loadAnalyzers, hread, hparse, hrun]⟩

theorem filesLoad_of_loadAnalyzers (w : World) (c : Cmd) (files : List String)
    (acc analyzers : List Analyzer) (h : c.loadAnalyzers w files acc = .ok analyzers) :
    FilesLoad w files := by
  obtain ⟨loaded, hmap, hall, _⟩ := loadAnalyzers_spec w c files acc analyzers h
  intro f hf
  rw [← hmap] at hf
  obtain ⟨x, hx, rfl⟩ := List.mem_map.mp hf
  obtain ⟨data, hread, hparse⟩ := hall x hx
  exact ⟨data, x.2, hread, hparse⟩

/-- Element `3 * k + j` of a concatenation of blocks of three. -/
theorem getElem?_flatMap_three {α β : Type} (g : α → List β) (hg : ∀ x, (g x).length = 3) :
    ∀ (l : List α) (k j : Nat), j < 3 →
      (l.flatMap g)[3 * k + j]? = (l[k]?).bind (fun x => (g x)[j]?)
  | [], k, j, _ => by simp
  | x :: l, 0, j, hj => by
    simp only [List.flatMap_cons, Nat.mul_zero, Nat.zero_add, List.getElem?_cons_zero,
      Option.some_bind]
    rw [List.getElem?_append_left (by rw [hg]; exact hj)]
  | x :: l, k + 1, j, hj => by
    simp only [List.flatMap_cons, List.getElem?_cons_succ]
    rw [List.getElem?_append_right (by rw [hg]; omega)]
    have : 3 * (k + 1) + j - (g x).length = 3 * k + j := by rw [hg]; omega
    rw [this]
    exact getElem?_flatMap_three g hg l k j hj

theorem length_flatMap_three {α β : Type} (g : α → List β) (hg : ∀ x, (g x).length = 3) :
    ∀ (l : List α), (l.flatMap g).length = 3 * l.length
  | [] => rfl
  | x :: l => by
    simp only [List.flatMap_cons, List.length_append, hg, length_flatMap_three g hg l,
      List.length_cons]
    omega

theorem setBytes_names (r : Result) (variant : Variant) (n : Nat) :
    (r.setBytes variant n).Filename = r.Filename ∧
    (r.setBytes variant n).Compression = r.Compression := by
  unfold Result.setBytes
  split_ifs <;> exact ⟨rfl, rfl⟩

/-- `Analyzer.Run` returns either a record and no error, or an error and no record; the
record names the file's base name and the compression policy. -/
theorem runVariants_shape (w : World) (a : Analyzer) :
    ∀ (order : List Variant) (r : Result) (res : Option Result) (err : Option String),
      a.runVariants w order r = .ok (res, err) →
      (res = none ∧ err.isSome) ∨
      (∃ r', res = some r' ∧ err = none ∧ r'.Filename = r.Filename ∧
        r'.Compression = r.Compression)
  | [], r, res, err, h => by
    simp only [Analyzer.runVariants, Except.ok.injEq, Prod.mk.injEq] at h
    exact Or.inr ⟨r, h.1.symm, h.2.symm, rfl, rfl⟩
  | variant :: rest, r, res, err, h => by
    unfold Analyzer.runVariants at h
    cases hd : Variant.Derive variant a.Store a.Profile with
    | error msg => simp [hd] at h
    | ok sp =>
      obtain ⟨st, variantProf⟩ := sp
      cases ha : Compression.Apply w a.Compression st variantProf with
      | error msg => simp [hd, ha] at h
      | ok applied =>
        cases applied with
        | error e =>
          simp only [hd, ha, Except.ok.injEq, Prod.mk.injEq] at h
          exact Or.inl ⟨h.1.symm, by simp [← h.2]⟩
        | ok data =>
          cases hw : w.writeFile (a.outFilename variant) data with
          | some e =>
            simp only [hd, ha, hw, Except.ok.injEq, Prod.mk.injEq] at h
            exact Or.inl ⟨h.1.symm, by simp [← h.2]⟩
          | none =>
            simp only [hd, ha, hw] at h
            rcases runVariants_shape w a rest _ res err h with hfail | ⟨r', h1, h2, h3, h4⟩
            · exact Or.inl hfail
            · exact Or.inr ⟨r', h1, h2, h3.trans (setBytes_names r variant _).1,
                h4.trans (setBytes_names r variant _).2⟩

theorem run_shape (w : World) (a : Analyzer) (order : List Variant)
    (res : Option Result) (err : Option String) (h : a.Run w order = .ok (res, err)) :
    (res = none ∧ err.isSome) ∨
    (∃ r, res = some r ∧ err = none ∧ r.Filename = filepathBase a.Filename ∧
      r.Compression = a.Compression) :=
  runVariants_shape w a order _ res err h

theorem apply_known_ok (w : World) (comp : Compression) (st : Store) (p : Profile)
    (hc : comp ∈ compressions) : ∃ r, Compression.Apply w comp st p = .ok r := by
  simp only [compressions, List.mem_cons, List.mem_singleton, List.not_mem_nil, or_false] at hc
  unfold Compression.Apply
  rcases hc with rfl | rfl | rfl
  · simp only [if_true]
    exact ⟨_, rfl⟩
  · have h1 : ¬ (CompressionGzip = CompressionNone) := by decide
    simp only [h1, if_false, if_true]
    exact ⟨_, rfl⟩
  · have h1 : ¬ (CompressionZstd = CompressionNone) := by decide
    have h2 : ¬ (CompressionZstd = CompressionGzip) := by decide
    simp only [h1, h2, if_false, if_true]
    cases w.writeUncompressed st p <;> exact ⟨_, rfl⟩

/-- A unit over a well-formed profile, one of the three policies and the three known tags
does not panic. -/
theorem runVariants_ok (w : World) (a : Analyzer) (hp : a.Profile.Invariant)
    (hc : a.Compression ∈ compressions) :
    ∀ (order : List Variant) (r : Result), (∀ v ∈ order, Variant.Known v) →
      ∃ out, a.runVariants w order r = .ok out
  | [], r, _ => ⟨_, rfl⟩
  | variant :: rest, r, hk => by
    obtain ⟨⟨st, variantProf⟩, hd⟩ := derive_known_ok variant a.Store a.Profile
      (labelSafe_of_invariant hp) (hk variant (List.mem_cons_self _ _))
    obtain ⟨applied, ha⟩ := apply_known_ok w a.Compression st variantProf hc
    unfold Analyzer.runVariants
    cases applied with
    | error e =>
      simp only [hd, ha]
      exact ⟨_, rfl⟩
    | ok data =>
      cases hw : w.writeFile (a.outFilename variant) data with
      | some e =>
        simp only [hd, ha, hw]
        exact ⟨_, rfl⟩
      | none =>
        simp only [hd, ha, hw]
        exact runVariants_ok w a hp hc rest (r.setBytes variant data.length)
          (fun v hv => hk v (List.mem_cons_of_mem _ hv))

theorem runUnit_spec (w : World) (orders : Nat → List Variant) (analyzers : List Analyzer)
    (g g1 : Group) (i : Nat) (h : Cmd.runUnit w orders analyzers g i = .ok g1) :
    (analyzers[i]? = none ∧ g1 = g) ∨
    (∃ a res err, analyzers[i]? = some a ∧ a.Run w (orders i) = .ok (res, err) ∧
      g1 = ⟨g.results.set i res, match g.err with | some e => some e | none => err⟩) := by
  unfold Cmd.runUnit at h
  cases ha : analyzers[i]? with
  | none =>
    simp only [ha, Except.ok.injEq] at h
    exact Or.inl ⟨rfl, h.symm⟩
  | some a =>
    cases hr : a.Run w (orders i) with
    | error msg => simp [ha, hr] at h
    | ok out =>
      obtain ⟨res, err⟩ := out
      simp only [ha, hr, Except.ok.injEq] at h
      exact Or.inr ⟨a, res, err, rfl, hr, h.symm⟩

/-- The state of the group after the units of `sched` have completed without a panic:
the slice keeps its length, a slot outside `sched` is untouched, the slot of a unit of
`sched` holds what that unit returned, and no error is recorded exactly when none was
before and every unit of `sched` returned none. -/
theorem runGroup_spec (w : World) (orders : Nat → List Variant) (analyzers : List Analyzer) :
    ∀ (sched : List Nat) (g g' : Group), Cmd.runGroup w orders analyzers sched g = .ok g' →
      g'.results.length = g.results.length ∧
      (∀ i, i ∉ sched → g'.results[i]? = g.results[i]?) ∧
      (∀ i ∈ sched, ∀ a, analyzers[i]? = some a →
        ∃ res err, a.Run w (orders i) = .ok (res, err) ∧
          (i < g.results.length → g'.results[i]? = some res)) ∧
      (g'.err = none ↔
        g.err = none ∧ ∀ i ∈ sched, ∀ a, analyzers[i]? = some a →
          ∃ res, a.Run w (orders i) = .ok (res, none))
  | [], g, g', h => by
    simp only [Cmd.runGroup, Except.ok.injEq] at h
    subst h
    simp
  | j :: sched, g, g', h => by
    unfold Cmd.runGroup at h
    cases hu : Cmd.runUnit w orders analyzers g j with
    | error msg => simp [hu] at h
    | ok g1 =>
      simp only [hu] at h
      obtain ⟨hlen, hout, hin, herr⟩ := runGroup_spec w orders analyzers sched g1 g' h
      rcases runUnit_spec w orders analyzers g g1 j hu with ⟨hnone, rfl⟩ | ⟨a, res, err, ha, hrun, rfl⟩
      · refine ⟨hlen, fun i hi => hout i (fun hmem => hi (List.mem_cons_of_mem _ hmem)), ?_, ?_⟩
        · intro i hi a ha
          rcases List.mem_cons.mp hi with rfl | hi
          · rw [hnone] at ha; cases ha
          · exact hin i hi a ha
        · rw [herr]
          constructor
          · rintro ⟨h1, h2⟩
            refine ⟨h1, fun i hi a ha => ?_⟩
            rcases List.mem_cons.mp hi with rfl | hi
            · rw [hnone] at ha; cases ha
            · exact h2 i hi a ha
          · rintro ⟨h1, h2⟩
            exact ⟨h1, fun i hi a ha => h2 i (List.mem_cons_of_mem _ hi) a ha⟩
      · simp only [List.length_set] at hlen hin
        refine ⟨hlen, ?_, ?_, ?_⟩
        · intro i hi
          have hij : j ≠ i := fun e => hi (e ▸ List.mem_cons_self _ _)
          rw [hout i (fun hmem => hi (List.mem_cons_of_mem _ hmem))]
          simp [List.getElem?_set, hij]
        · intro i hi a' ha'
          by_cases hmem : i ∈ sched
          · exact hin i hmem a' ha'
          · rcases List.mem_cons.mp hi with rfl | hi
            · rw [ha] at ha'
              cases ha'
              refine ⟨res, err, hrun, fun hlt => ?_⟩
              rw [hout i hmem]
              simp [List.getElem?_set, hlt]
            · exact absurd hi hmem
        · rw [herr]
          constructor
          · rintro ⟨h1, h2⟩
            cases hg : g.err with
            | some e => simp [hg] at h1
            | none =>
              simp only [hg] at h1
              refine ⟨rfl, fun i hi a' ha' => ?_⟩
              rcases List.mem_cons.mp hi with rfl | hi
              · rw [ha] at ha'
                cases ha'
                exact ⟨res, by rw [hrun, h1]⟩
              · exact h2 i hi a' ha'
          · rintro ⟨h1, h2⟩
            obtain ⟨res', hres'⟩ := h2 j (List.mem_cons_self _ _) a ha
            rw [hrun] at hres'
            simp only [Except.ok.injEq, Prod.mk.injEq] at hres'
            refine ⟨by simp [h1, hres'.2], fun i hi a' ha' => h2 i (List.mem_cons_of_mem _ hi) a' ha'⟩

/-- A panic of the group is the panic of one of its units. -/
theorem runGroup_panic (w : World) (orders : Nat → List Variant) (analyzers : List Analyzer) :
    ∀ (sched : List Nat) (g : Group) (msg : String),
      Cmd.runGroup w orders analyzers sched g = .error msg →
      ∃ i ∈ sched, ∃ a m, analyzers[i]? = some a ∧ a.Run w (orders i) = .error m
  | [], g, msg, h => by simp [Cmd.runGroup] at h
  | j :: sched, g, msg, h => by
    unfold Cmd.runGroup at h
    cases hu : Cmd.runUnit w orders analyzers g j with
    | ok g1 =>
      simp only [hu] at h
      obtain ⟨i, hi, a, m, ha, hm⟩ := runGroup_panic w orders analyzers sched g1 msg h
      exact ⟨i, List.mem_cons_of_mem _ hi, a, m, ha, hm⟩
    | error m =>
      unfold Cmd.runUnit at hu
      cases ha : analyzers[j]? with
      | none => simp [ha] at hu
      | some a =>
        cases hr : a.Run w (orders j) with
        | error m' => exact ⟨j, List.mem_cons_self _ _, a, m', ha, hr⟩
        | ok out => simp [ha, hr] at hu

theorem runGroup_total (w : World) (orders : Nat → List Variant) (analyzers : List Analyzer)
    (sched : List Nat) (g : Group)
    (h : ∀ i ∈ sched, ∀ a, analyzers[i]? = some a → ∃ out, a.Run w (orders i) = .ok out) :
    ∃ g', Cmd.runGroup w orders analyzers sched g = .ok g' := by
  cases hg : Cmd.runGroup w orders analyzers sched g with
  | ok g' => exact ⟨g', rfl⟩
  | error msg =>
    obtain ⟨i, hi, a, m, ha, hm⟩ := runGroup_panic w orders analyzers sched g msg hg
    obtain ⟨out, hout⟩ := h i hi a ha
    rw [hm] at hout
    cases hout

theorem length_loadAnalyzers (w : World) (c : Cmd) (files : List String)
    (analyzers : List Analyzer) (h : c.loadAnalyzers w files [] = .ok analyzers) :
    analyzers.length = 3 * files.length := by
  obtain ⟨loaded, hmap, _, rfl⟩ := loadAnalyzers_spec w c files [] analyzers h
  have hthree : ∀ x : String × Store × Profile,
      (compressions.map (fun compression =>
        (⟨x.1, x.2.1, x.2.2, compression, c.OutDir⟩ : Analyzer))).length = 3 := fun _ => rfl
  rw [List.nil_append, length_flatMap_three _ hthree, ← hmap, List.length_map]

/-! ## The claims about the harness -/

/-- C8: for every list of input files and every order `sched` in which the units finish,
when every file loads and every unit succeeds, `Cmd.Run` hands to the report encoder a
sequence of exactly `3 * N` records, and record `3 * k + j` is the record returned by the
unit of the `k`-th file and the `j`-th policy of `[none, gzip, zstd]`; its `Filename`
is the base name of that file and its `Compression` is that policy. -/
theorem C8_report_rows_in_enumeration_order (w : World) (c : Cmd)
    (orders : Nat → List Variant) (sched : List Nat) (files : List String)
    (hfiles : c.inFiles w = .ok files)
    (hall : AllSucceed w c orders files)
    (hsched : sched.Perm (List.range (3 * files.length))) :
    ∃ rows,
      c.Run w orders sched = .ok ⟨some rows, w.encode rows⟩ ∧
      rows.length = 3 * files.length ∧
      ∀ k j, k < files.length → j < 3 →
        ∃ (f : String) (compression : Compression) (a : Analyzer) (r : Result),
          files[k]? = some f ∧ compressions[j]? = some compression ∧
          a.Filename = f ∧ a.Compression = compression ∧ a.OutDir = c.OutDir ∧
          (∃ data, w.readFile f = .ok data ∧ w.parseData data = .ok (a.Store, a.Profile)) ∧
          a.Run w (orders (3 * k + j)) = .ok (some r, none) ∧
          rows[3 * k + j]? = some (some r) ∧
          r.Filename = filepathBase f ∧ r.Compression = compression := by
  obtain ⟨analyzers, hload⟩ := loadAnalyzers_ok w c files [] hall.1
  have hunits := hall.2 analyzers hload
  have hn := length_loadAnalyzers w c files analyzers hload
  have hmem : ∀ i, i ∈ sched ↔ i < analyzers.length := fun i => by
    rw [hsched.mem_iff, List.mem_range, hn]
  obtain ⟨g, hg⟩ := runGroup_total w orders analyzers sched
    ⟨List.replicate analyzers.length none, none⟩
    (fun i _ a ha => by
      obtain ⟨r, hr⟩ := hunits i a ha
      exact ⟨_, hr⟩)
  obtain ⟨hlen, -, hin, herr⟩ := runGroup_spec w orders analyzers sched _ g hg
  have hnone : g.err = none := herr.mpr ⟨rfl, fun i _ a ha => by
    obtain ⟨r, hr⟩ := hunits i a ha
    exact ⟨_, hr⟩⟩
  simp only [List.length_replicate] at hlen hin
  refine ⟨g.results, by simp only [Cmd.Run, hfiles, hload, hg, hnone], by rw [hlen, hn], ?_⟩
  intro k j hk hj
  obtain ⟨loaded, hmap, hloaded, rfl⟩ := loadAnalyzers_spec w c files [] analyzers hload
  have hthree : ∀ x : String × Store × Profile,
      (compressions.map (fun compression =>
        (⟨x.1, x.2.1, x.2.2, compression, c.OutDir⟩ : Analyzer))).length = 3 := fun _ => rfl
  have hkl : k < loaded.length := by rw [← List.length_map loaded (fun x => x.1), hmap]; exact hk
  have hidx := getElem?_flatMap_three _ hthree loaded k j hj
  rw [List.getElem?_eq_getElem hkl, Option.some_bind] at hidx
  have hjc : j < compressions.length := hj
  rw [List.getElem?_map, List.getElem?_eq_getElem hjc, Option.map_some'] at hidx
  have hfk : files[k]? = some (loaded[k]).1 := by
    rw [← hmap, List.getElem?_map, List.getElem?_eq_getElem hkl, Option.map_some']
  obtain ⟨data, hread, hparse⟩ := hloaded loaded[k] (List.getElem_mem _)
  rw [← List.nil_append (List.flatMap _ _)] at hidx
  obtain ⟨r, hr⟩ := hunits (3 * k + j) _ hidx
  have hlt : 3 * k + j < ([] ++ loaded.flatMap (fun x => compressions.map (fun compression =>
      (⟨x.1, x.2.1, x.2.2, compression, c.OutDir⟩ : Analyzer)))).length := by
    rw [hn]; omega
  obtain ⟨res, err, hrun, hslot⟩ := hin (3 * k + j) ((hmem _).mpr hlt) _ hidx
  rw [hr] at hrun
  simp only [Except.ok.injEq, Prod.mk.injEq] at hrun
  rcases run_shape w _ _ _ _ hr with ⟨h1, _⟩ | ⟨r', h1, _, h3, h4⟩
  · cases h1
  · cases h1
    exact ⟨(loaded[k]).1, compressions[j], _, r, hfk, List.getElem?_eq_getElem hjc, rfl, rfl, rfl,
      ⟨data, hread, hparse⟩, hr, by rw [hslot hlt, ← hrun.1], h3, h4⟩

theorem quietWorld_allSucceed :
    AllSucceed quietWorld exampleCmd exampleOrders ["in/a.pprof", "in/b.pprof"] := by
  refine ⟨fun f _ => ⟨[], _, rfl, rfl⟩, fun analyzers hload i a ha => ?_⟩
  have hload' : Except.ok _ = Except.ok analyzers := hload
  have heq := Except.ok.inj hload'
  subst heq
  match i, ha with
  | 0, ha => cases ha; exact ⟨_, rfl⟩
  | 1, ha => cases ha; exact ⟨_, rfl⟩
  | 2, ha => cases ha; exact ⟨_, rfl⟩
  | 3, ha => cases ha; exact ⟨_, rfl⟩
  | 4, ha => cases ha; exact ⟨_, rfl⟩
  | 5, ha => cases ha; exact ⟨_, rfl⟩
  | n + 6, ha => cases ha

theorem C8_witness :
    ∃ rows,
      exampleCmd.Run quietWorld exampleOrders [5, 3, 1, 0, 2, 4]
        = .ok ⟨some rows, quietWorld.encode rows⟩ ∧
      rows.length = 3 * ["in/a.pprof", "in/b.pprof"].length ∧
      ∀ k j, k < ["in/a.pprof", "in/b.pprof"].length → j < 3 →
        ∃ (f : String) (compression : Compression) (a : Analyzer) (r : Result),
          ["in/a.pprof", "in/b.pprof"][k]? = some f ∧ compressions[j]? = some compression ∧
          a.Filename = f ∧ a.Compression = compression ∧ a.OutDir = exampleCmd.OutDir ∧
          (∃ data, quietWorld.readFile f = .ok data ∧
            quietWorld.parseData data = .ok (a.Store, a.Profile)) ∧
          a.Run quietWorld (exampleOrders (3 * k + j)) = .ok (some r, none) ∧
          rows[3 * k + j]? = some (some r) ∧
          r.Filename = filepathBase f ∧ r.Compression = compression :=
  C8_report_rows_in_enumeration_order quietWorld exampleCmd exampleOrders [5, 3, 1, 0, 2, 4]
    ["in/a.pprof", "in/b.pprof"] rfl quietWorld_allSucceed (by decide)

/-- The report of the example run, whatever the completion order: six rows in the order
of the (file, compression) enumeration. -/
theorem quietWorld_report :
    exampleCmd.Run quietWorld exampleOrders [5, 3, 1, 0, 2, 4]
      = .ok ⟨some [some ⟨"a.pprof", "none", 3, 3, 3⟩, some ⟨"a.pprof", "gzip", 2, 2, 2⟩,
                   some ⟨"a.pprof", "zstd", 1, 1, 1⟩, some ⟨"b.pprof", "none", 3, 3, 3⟩,
                   some ⟨"b.pprof", "gzip", 2, 2, 2⟩, some ⟨"b.pprof", "zstd", 1, 1, 1⟩], none⟩ := by
  rfl

/-- C9: for every list of input files and every completion order of the units. When
`Cmd.Run` returns, the report was handed to the encoder if and only if every input file
was read and parsed and every unit succeeded, and otherwise `Cmd.Run` returns an error
and nothing was reported, the successful units included. A panic in a unit (which
ends the process without a report) only happens when not every unit succeeds, and
never when the parsed profiles satisfy the data-model invariant and the units iterate
over the three known tags. A file that fails to read or parse makes `Cmd.Run` return
an error before any unit runs. A failing `Analyzer.Run` returns no result record. -/
theorem C9_report_only_after_full_success (w : World) (c : Cmd)
    (orders : Nat → List Variant) (sched : List Nat) (files : List String)
    (hfiles : c.inFiles w = .ok files)
    (hsched : sched.Perm (List.range (3 * files.length))) :
    (∀ out, c.Run w orders sched = .ok out →
      (out.report.isSome ↔ AllSucceed w c orders files) ∧
      (¬ AllSucceed w c orders files → out.err.isSome ∧ out.report = none)) ∧
    (∀ msg, c.Run w orders sched = .error msg → ¬ AllSucceed w c orders files) ∧
    ((∀ data st prof, w.parseData data = .ok (st, prof) → prof.Invariant) →
      (∀ i, ∀ v ∈ orders i, Variant.Known v) →
      ∃ out, c.Run w orders sched = .ok out) ∧
    (¬ FilesLoad w files → ∃ err, c.Run w orders sched = .ok ⟨none, some err⟩) ∧
    (∀ (a : Analyzer) (order : List Variant) (res : Option Result) (err : String),
      a.Run w order = .ok (res, some err) → res = none) := by
  have hlast : ∀ (a : Analyzer) (order : List Variant) (res : Option Result) (err : String),
      a.Run w order = .ok (res, some err) → res = none := by
    intro a order res err h
    rcases run_shape w a order res (some err) h with ⟨h1, _⟩ | ⟨_, _, h2, _⟩
    · exact h1
    · cases h2
  cases hload : c.loadAnalyzers w files [] with
  | error e =>
    have hnot : ¬ FilesLoad w files := fun hf => by
      obtain ⟨analyzers, ha⟩ := loadAnalyzers_ok w c files [] hf
      rw [ha] at hload
      cases hload
    have hrun : c.Run w orders sched = .ok ⟨none, some e⟩ := by
      simp only [Cmd.Run, hfiles, hload]
    refine ⟨?_, ?_, fun _ _ => ⟨_, hrun⟩, fun _ => ⟨e, hrun⟩, hlast⟩
    · intro out hout
      rw [hrun] at hout
      cases hout
      exact ⟨⟨fun h => by simp at h, fun h => absurd h.1 hnot⟩, fun _ => ⟨rfl, rfl⟩⟩
    · intro msg hmsg
      rw [hrun] at hmsg
      cases hmsg
  | ok analyzers =>
    have hload_files : FilesLoad w files := filesLoad_of_loadAnalyzers w c files [] analyzers hload
    have hn := length_loadAnalyzers w c files analyzers hload
    have hmem : ∀ i, i ∈ sched ↔ i < analyzers.length := fun i => by
      rw [hsched.mem_iff, List.mem_range, hn]
    have hall_iff : AllSucceed w c orders files ↔ UnitsSucceed w orders analyzers := by
      constructor
      · exact fun h => h.2 analyzers hload
      · intro h
        refine ⟨hload_files, fun analyzers' h' => ?_⟩
        rw [hload] at h'
        cases h'
        exact h
    have hidx : ∀ (i : Nat) (a : Analyzer), analyzers[i]? = some a → i ∈ sched := by
      intro i a ha
      rw [hmem]
      by_contra hge
      rw [List.getElem?_eq_none (by omega)] at ha
      cases ha
    cases hg : Cmd.runGroup w orders analyzers sched ⟨List.replicate analyzers.length none, none⟩ with
    | error msg =>
      have hrun : c.Run w orders sched = .error msg := by
        simp only [Cmd.Run, hfiles, hload, hg]
      obtain ⟨i, _, a, m, ha, hm⟩ := runGroup_panic w orders analyzers sched _ msg hg
      have hnot : ¬ AllSucceed w c orders files := fun h => by
        obtain ⟨r, hr⟩ := hall_iff.mp h i a ha
        rw [hm] at hr
        cases hr
      refine ⟨?_, fun _ _ => hnot, ?_, fun h => absurd hload_files h, hlast⟩
      · intro out hout
        rw [hrun] at hout
        cases hout
      · intro hwf hknown
        exfalso
        obtain ⟨loaded, _, hloaded, heq⟩ := loadAnalyzers_spec w c files [] analyzers hload
        have hmema : a ∈ analyzers := List.getElem?_mem ha
        rw [heq, List.nil_append, List.mem_flatMap] at hmema
        obtain ⟨x, hx, hax⟩ := hmema
        obtain ⟨comp, hcomp, rfl⟩ := List.mem_map.mp hax
        obtain ⟨data, _, hparse⟩ := hloaded x hx
        obtain ⟨out, hout⟩ := runVariants_ok w ⟨x.1, x.2.1, x.2.2, comp, c.OutDir⟩
          (hwf data x.2.1 x.2.2 hparse) hcomp (orders i)
          ⟨filepathBase x.1, comp, 0, 0, 0⟩ (hknown i)
        have hm' : Analyzer.runVariants w ⟨x.1, x.2.1, x.2.2, comp, c.OutDir⟩ (orders i)
            ⟨filepathBase x.1, comp, 0, 0, 0⟩ = .error m := hm
        rw [hm'] at hout
        cases hout
    | ok g =>
      obtain ⟨_, -, hin, herr⟩ := runGroup_spec w orders analyzers sched _ g hg
      have herr' : g.err = none ↔ UnitsSucceed w orders analyzers := by
        rw [herr]
        constructor
        · rintro ⟨_, h⟩ i a ha
          obtain ⟨res, hres⟩ := h i (hidx i a ha) a ha
          rcases run_shape w a _ res none hres with ⟨_, h2⟩ | ⟨r, rfl, _⟩
          · simp at h2
          · exact ⟨r, hres⟩
        · intro h
          refine ⟨rfl, fun i _ a ha => ?_⟩
          obtain ⟨r, hr⟩ := h i a ha
          exact ⟨_, hr⟩
      cases hge : g.err with
      | some e =>
        have hrun : c.Run w orders sched = .ok ⟨none, some e⟩ := by
          simp only [Cmd.Run, hfiles, hload, hg, hge]
        have hnot : ¬ AllSucceed w c orders files := fun h => by
          have := herr'.mpr (hall_iff.mp h)
          rw [hge] at this
          cases this
        refine ⟨?_, ?_, fun _ _ => ⟨_, hrun⟩, fun h => absurd hload_files h, hlast⟩
        · intro out hout
          rw [hrun] at hout
          cases hout
          exact ⟨⟨fun h => by simp at h, fun h => absurd h hnot⟩, fun _ => ⟨rfl, rfl⟩⟩
        · intro msg hmsg
          rw [hrun] at hmsg
          cases hmsg
      | none =>
        have hrun : c.Run w orders sched = .ok ⟨some g.results, w.encode g.results⟩ := by
          simp only [Cmd.Run, hfiles, hload, hg, hge]
        have hyes : AllSucceed w c orders files := hall_iff.mpr (herr'.mp hge)
        refine ⟨?_, ?_, fun _ _ => ⟨_, hrun⟩, fun h => absurd hload_files h, hlast⟩
        · intro out hout
          rw [hrun] at hout
          cases hout
          exact ⟨⟨fun _ => hyes, fun _ => rfl⟩, fun h => absurd hyes h⟩
        · intro msg hmsg
          rw [hrun] at hmsg
          cases hmsg

/-- C7, the code at a failing input: `in/a.pprof` and `in/a.pprof.pprof` are distinctly
named files of the directory `in`, both matched by `*.pprof`, and for every variant their
units under the same policy write to the same path, because `strings.Cut` cuts the base
name at the first `.pprof`: the base name `a.pprof.pprof` gives `a`, not `a.pprof`. -/
theorem C7_outFilename_collision :
    unitA.Filename ≠ unitB.Filename ∧
    unitA.Filename = filepathJoin ["in", "a.pprof"] ∧
    unitB.Filename = filepathJoin ["in", "a.pprof.pprof"] ∧
    matchesPprof "a.pprof" = true ∧ matchesPprof "a.pprof.pprof" = true ∧
    stringsCut (filepathBase unitB.Filename) ".pprof" = ("a", ".pprof", true) ∧
    unitA.outFilename VariantPlain = "out/a.none.plain.pprof" ∧
    unitB.outFilename VariantPlain = "out/a.none.plain.pprof" ∧
    unitA.outFilename VariantBreakdown = unitB.outFilename VariantBreakdown ∧
    unitA.outFilename VariantLabel = unitB.outFilename VariantLabel := by
  decide

theorem C9_witness :
    (∀ out, exampleCmd.Run zstdFailsWorld exampleOrders [5, 3, 1, 0, 2, 4] = .ok out →
      (out.report.isSome ↔
        AllSucceed zstdFailsWorld exampleCmd exampleOrders ["in/a.pprof", "in/b.pprof"]) ∧
      (¬ AllSucceed zstdFailsWorld exampleCmd exampleOrders ["in/a.pprof", "in/b.pprof"] →
        out.err.isSome ∧ out.report = none)) ∧
    (∀ msg, exampleCmd.Run zstdFailsWorld exampleOrders [5, 3, 1, 0, 2, 4] = .error msg →
      ¬ AllSucceed zstdFailsWorld exampleCmd exampleOrders ["in/a.pprof", "in/b.pprof"]) ∧
    ((∀ data st prof, zstdFailsWorld.parseData data = .ok (st, prof) → prof.Invariant) →
      (∀ i, ∀ v ∈ exampleOrders i, Variant.Known v) →
      ∃ out, exampleCmd.Run zstdFailsWorld exampleOrders [5, 3, 1, 0, 2, 4] = .ok out) ∧
    (¬ FilesLoad zstdFailsWorld ["in/a.pprof", "in/b.pprof"] →
      ∃ err, exampleCmd.Run zstdFailsWorld exampleOrders [5, 3, 1, 0, 2, 4]
        = .ok ⟨none, some err⟩) ∧
    (∀ (a : Analyzer) (order : List Variant) (res : Option Result) (err : String),
      a.Run zstdFailsWorld order = .ok (res, some err) → res = none) :=
  C9_report_only_after_full_success zstdFailsWorld exampleCmd exampleOrders [5, 3, 1, 0, 2, 4]
    ["in/a.pprof", "in/b.pprof"] rfl (by decide)

/-- The run in which the zstd units fail: the four other units succeed, and `Cmd.Run`
returns the error of the unit that completed first among the failing ones (unit 5 here)
without handing anything to the report encoder. -/
theorem zstdFailsWorld_run :
    exampleCmd.Run zstdFailsWorld exampleOrders [5, 3, 1, 0, 2, 4]
      = .ok ⟨none, some "zstd: close failed"⟩ := by
  rfl

end PprofBreakdown
